import Mathlib

/-!
Verification of the odarcon RCON client's message protocol and transport
session, shallowly embedded from `src/protocol.rs` and `src/socket.rs`.

The protocol code serializes messages with serde (adjacently tagged enums,
a flattened envelope carrying a numeric `id`) through `serde_json`.  The
embedding models the serde data model as a JSON value type `Json`, the
`serde_json` text layer as an executable printer (`jsonChars`) and
recursive-descent parser (`jsonParse`), and the derive-generated
encoders/decoders as explicit Lean functions on `Json`.

Floating-point JSON numbers are represented by the payload-free
constructor `Json.fnum`: the protocol never produces them and every
decoder in the protocol rejects them, matching serde_json's behaviour of
failing integer/string deserialization from floats.
-/

set_option maxRecDepth 4096

namespace Odarcon

/-- JSON values, the serde_json data model.  Integer numbers carry their
value; `fnum` marks a number lexed with a fraction or exponent part or
one that falls outside both the `u64` and `i64` ranges, which serde_json
represents as `f64`. -/
inductive Json where
  | null : Json
  | bool (b : Bool) : Json
  | num (n : Int) : Json
  | fnum : Json
  | str (s : String) : Json
  | arr (xs : List Json) : Json
  | obj (fields : List (String × Json)) : Json

/-- Lowercase hexadecimal digit, as used by serde_json's `\u00XX` escapes. -/
def hexChar (n : Nat) : Char :=
  if n < 10 then Char.ofNat (48 + n) else Char.ofNat (87 + n)

/-- Escape one character the way serde_json's compact and pretty writers
both do: `"` and `\` get a backslash, the five short control escapes are
used where they exist, all other control characters below 0x20 become
`\u00XX`, and every other character is emitted verbatim. -/
def escapeChar (c : Char) : List Char :=
  if c = '"' then ['\\', '"']
  else if c = '\\' then ['\\', '\\']
  else if c.toNat = 8 then ['\\', 'b']
  else if c.toNat = 9 then ['\\', 't']
  else if c.toNat = 10 then ['\\', 'n']
  else if c.toNat = 12 then ['\\', 'f']
  else if c.toNat = 13 then ['\\', 'r']
  else if c.toNat < 32 then
    ['\\', 'u', '0', '0', hexChar (c.toNat / 16), hexChar (c.toNat % 16)]
  else [c]

/-- Character list of a JSON string literal, quotes included. -/
def strChars (s : String) : List Char :=
  '"' :: (s.data.flatMap escapeChar) ++ ['"']

/-- Decimal digit character. -/
def digitChar (n : Nat) : Char := Char.ofNat (48 + n)

/-- Decimal digits of a natural number, most significant first.  The
fuel argument keeps the recursion structural so that the kernel can
evaluate it; `natChars` supplies enough. -/
def natCharsAux : Nat → Nat → List Char
  | 0, _ => []
  | fuel + 1, n =>
    if n < 10 then [digitChar n]
    else natCharsAux fuel (n / 10) ++ [digitChar (n % 10)]

/-- Decimal digits of a natural number, most significant first. -/
def natChars (n : Nat) : List Char := natCharsAux (n + 1) n

/-- Decimal representation of an integer. -/
def intChars (n : Int) : List Char :=
  if n < 0 then '-' :: natChars n.natAbs else natChars n.natAbs

/-- Interpose a separator between the character lists of a list of items. -/
def joinSep (sep : List Char) : List (List Char) → List Char
  | [] => []
  | [x] => x
  | x :: y :: rest => x ++ sep ++ joinSep sep (y :: rest)

mutual

/-- Compact JSON text of a value, as produced by `serde_json::to_string`:
no whitespace, `,` and `:` separators. -/
def jsonChars : Json → List Char
  | .null => "null".data
  | .bool true => "true".data
  | .bool false => "false".data
  | .num n => intChars n
  | .fnum => ['0', '.', '0']
  | .str s => strChars s
  | .arr xs => '[' :: itemsChars xs ++ [']']
  | .obj fields => '{' :: membersChars fields ++ ['}']

/-- Comma-separated array items. -/
def itemsChars : List Json → List Char
  | [] => []
  | [x] => jsonChars x
  | x :: y :: rest => jsonChars x ++ ',' :: itemsChars (y :: rest)

/-- Comma-separated object members, each `"key":value`. -/
def membersChars : List (String × Json) → List Char
  | [] => []
  | [(k, v)] => strChars k ++ ':' :: jsonChars v
  | (k, v) :: m :: rest => strChars k ++ ':' :: jsonChars v ++ ',' :: membersChars (m :: rest)

end

/-- Compact JSON text of a value as a string. -/
def jsonToString (v : Json) : String := String.mk (jsonChars v)

/-- Indentation used by serde_json's pretty writer: two spaces per level. -/
def indentChars (level : Nat) : List Char := List.replicate (2 * level) ' '

mutual

/-- Pretty JSON text of a value, as produced by
`serde_json::to_string_pretty` (two-space indent, `": "` and `",\n"`
separators); this is the `Display` implementation for messages. -/
def jsonPrettyChars : Nat → Json → List Char
  | _, .null => "null".data
  | _, .bool true => "true".data
  | _, .bool false => "false".data
  | _, .num n => intChars n
  | _, .fnum => ['0', '.', '0']
  | _, .str s => strChars s
  | _, .arr [] => ['[', ']']
  | level, .arr (x :: xs) =>
    '[' :: '\n' :: prettyItems (level + 1) (x :: xs) ++
      '\n' :: indentChars level ++ [']']
  | _, .obj [] => ['{', '}']
  | level, .obj (f :: fs) =>
    '{' :: '\n' :: prettyMembers (level + 1) (f :: fs) ++
      '\n' :: indentChars level ++ ['}']

/-- Pretty array items, one per line. -/
def prettyItems : Nat → List Json → List Char
  | _, [] => []
  | level, [x] => indentChars level ++ jsonPrettyChars level x
  | level, x :: y :: rest =>
    indentChars level ++ jsonPrettyChars level x ++
      ',' :: '\n' :: prettyItems level (y :: rest)

/-- Pretty object members, one per line, `"key": value`. -/
def prettyMembers : Nat → List (String × Json) → List Char
  | _, [] => []
  | level, [(k, v)] => indentChars level ++ strChars k ++ ':' :: ' ' :: jsonPrettyChars level v
  | level, (k, v) :: m :: rest =>
    indentChars level ++ strChars k ++ ':' :: ' ' :: jsonPrettyChars level v ++
      ',' :: '\n' :: prettyMembers level (m :: rest)

end

/-- Pretty JSON text of a value as a string. -/
def jsonToStringPretty (v : Json) : String := String.mk (jsonPrettyChars 0 v)

/-!  The protocol data model, from `src/protocol.rs`. -/

/-- Severity classification of server log lines (`PrintLevel`),
serialized with `rename_all = "lowercase"`. -/
inductive PrintLevel where
  | pickup
  | obituary
  | high
  | chat
  | teamchat
  | serverchat
  | warning
  | error
deriving DecidableEq

/-- Wire name of a `PrintLevel` variant (the lowercase variant name). -/
def PrintLevel.toWire : PrintLevel → String
  | .pickup => "pickup"
  | .obituary => "obituary"
  | .high => "high"
  | .chat => "chat"
  | .teamchat => "teamchat"
  | .serverchat => "serverchat"
  | .warning => "warning"
  | .error => "error"

/-- Three-component protocol version.  The Rust fields are `u8`; the
embedding uses `Nat` and carries the `< 256` bounds as hypotheses where
they matter. -/
structure ProtocolVersion where
  major : Nat
  minor : Nat
  revision : Nat
deriving DecidableEq

/-- Wire encoding of a `ProtocolVersion`: the string
`"major.minor.revision"` (custom `Serialize` impl). -/
def ProtocolVersion.toWire (v : ProtocolVersion) : String :=
  String.mk (natChars v.major ++ '.' :: natChars v.minor ++ '.' :: natChars v.revision)

/-- ASCII decimal digit test (also used by the JSON lexer). -/
def isDigitChar (c : Char) : Bool :=
  decide (48 ≤ c.toNat) && decide (c.toNat ≤ 57)

/-- Digit-accumulation loop of Rust's `u8::from_str`: consume decimal
digits with a checked multiply-add, failing on any non-digit or on
overflow past 255. -/
def parseU8Digits : List Char → Nat → Option Nat
  | [], acc => some acc
  | c :: rest, acc =>
    if isDigitChar c then
      if 255 < acc * 10 + (c.toNat - 48) then none
      else parseU8Digits rest (acc * 10 + (c.toNat - 48))
    else none

/-- Rust's `<u8 as FromStr>::from_str` on a character list: an optional
leading `+` followed by one or more decimal digits whose value fits in a
byte.  The empty string and a bare `+` fail; a leading `-` is not
accepted for an unsigned type and fails in the digit loop. -/
def parseRustU8 : List Char → Option Nat
  | [] => none
  | c :: rest =>
    if c = '+' then
      match rest with
      | [] => none
      | _ :: _ => parseU8Digits rest 0
    else parseU8Digits (c :: rest) 0

/-- Rust's `str::split('.')` on a character list: the (always nonempty)
list of separator-delimited segments, keeping empty segments. -/
def splitOnDot : List Char → List (List Char)
  | [] => [[]]
  | c :: rest =>
    if c = '.' then [] :: splitOnDot rest
    else
      match splitOnDot rest with
      | p :: ps => (c :: p) :: ps
      | [] => [[c]]

/-- Custom `Deserialize` impl of `ProtocolVersion` applied to the
already-extracted JSON string: split on `.`, require exactly three
segments, and parse each as a Rust `u8`. -/
def ProtocolVersion.fromString (s : String) : Except String ProtocolVersion :=
  match splitOnDot s.data with
  | [a, b, c] =>
    match parseRustU8 a with
    | none => .error "Invalid major version"
    | some major =>
      match parseRustU8 b with
      | none => .error "Invalid minor version"
      | some minor =>
        match parseRustU8 c with
        | none => .error "Invalid revision version"
        | some revision => .ok ⟨major, minor, revision⟩
  | _ => .error "Expected format 'major.minor.revision'"

/-- Server-to-client content variants (`ServerMessageType`).  The
`LoginResponse` payload is a `u64`, modelled as `Nat` with its `< 2^64`
bound carried as a hypothesis where it matters. -/
inductive ServerMessageType where
  | loginResponse (token : Nat)
  | loginFailure (reason : String)
  | loginSuccess
  | print (printlevel : PrintLevel) (text : String)
  | maplist
deriving DecidableEq

/-- Client-to-server content variants (`ClientMessageType`). -/
inductive ClientMessageType where
  | loginRequest (version : ProtocolVersion)
  | loginPassword (password : String)
  | command (cmd : String)
  | maplist
deriving DecidableEq

/-- The message envelope `Message<T>`: a content variant plus a `usize`
id (modelled as `Nat`, bound `< 2^64` as a hypothesis where it
matters). -/
structure Message (T : Type) where
  content : T
  id : Nat
deriving DecidableEq

/-!  Wire encoding.  serde serializes `Message<T>` with
`#[serde(flatten)]` on `content`, so the adjacently tagged content
entries (`"type"`, and `"content"` unless the variant is a unit variant,
which serializes with its tag alone) come first, followed by `"id"`. -/

/-- Adjacently tagged encoding of a server content variant: its
`"type"`/`"content"` object entries. -/
def encodeServerContent : ServerMessageType → List (String × Json)
  | .loginResponse n => [("type", .str "login_response"), ("content", .num n)]
  | .loginFailure s => [("type", .str "login_failure"), ("content", .str s)]
  | .loginSuccess => [("type", .str "login_success")]
  | .print pl t =>
    [("type", .str "print"),
     ("content", .obj [("printlevel", .str pl.toWire), ("text", .str t)])]
  | .maplist => [("type", .str "maplist")]

/-- Adjacently tagged encoding of a client content variant. -/
def encodeClientContent : ClientMessageType → List (String × Json)
  | .loginRequest v => [("type", .str "login_request"), ("content", .str v.toWire)]
  | .loginPassword s => [("type", .str "login_password"), ("content", .str s)]
  | .command s => [("type", .str "command"), ("content", .str s)]
  | .maplist => [("type", .str "maplist")]

/-- Envelope encoding shared by both directions: flattened content
entries followed by the numeric id. -/
def encodeMessageWith (enc : T → List (String × Json)) (m : Message T) : Json :=
  .obj (enc m.content ++ [("id", .num m.id)])

/-- JSON value of a serialized server message. -/
def encodeServerMessage : Message ServerMessageType → Json :=
  encodeMessageWith encodeServerContent

/-- JSON value of a serialized client message. -/
def encodeClientMessage : Message ClientMessageType → Json :=
  encodeMessageWith encodeClientContent

/-- `Message::serialize` for server messages:
`serde_json::to_string(&self).unwrap()`. -/
def serializeServer (m : Message ServerMessageType) : String :=
  jsonToString (encodeServerMessage m)

/-- `Message::serialize` for client messages. -/
def serializeClient (m : Message ClientMessageType) : String :=
  jsonToString (encodeClientMessage m)

/-- The `Display` impl of `Message`:
`serde_json::to_string_pretty(&self).unwrap()`. -/
def displayServerMessage (m : Message ServerMessageType) : String :=
  jsonToStringPretty (encodeServerMessage m)

/-!  Wire decoding, mirroring the serde-generated deserializers. -/

/-- First value stored under a key in a JSON object's field list. -/
def objFieldList : List (String × Json) → String → Option Json
  | [], _ => none
  | (k, v) :: rest, key => if k = key then some v else objFieldList rest key

/-- Number of entries stored under a key in a JSON object's field
list. -/
def countKey : List (String × Json) → String → Nat
  | [], _ => 0
  | (k, _) :: rest, key => (if k = key then 1 else 0) + countKey rest key

/-- Deserialize a `u64` (also `usize`, which is 64-bit here) from a JSON
value: only an integer number in range succeeds; floats, negatives and
every other value kind fail, as in serde_json. -/
def decodeU64 : Json → Except String Nat
  | .num n => if 0 ≤ n ∧ n < 2 ^ 64 then .ok n.toNat else .error "integer out of u64 range"
  | _ => .error "invalid type: expected u64"

/-- Deserialize a `String` from a JSON value. -/
def decodeString : Json → Except String String
  | .str s => .ok s
  | _ => .error "invalid type: expected a string"

/-- Deserialize a unit variant's payload: in adjacent tagging the
`content` key may be absent, or present with value `null`; anything else
is a type error. -/
def decodeUnit : Option Json → Except String Unit
  | none => .ok ()
  | some .null => .ok ()
  | some _ => .error "invalid type: expected null for a unit variant"

/-- `PrintLevel` variant of a lowercase wire name, if any. -/
def printLevelOfName (s : String) : Option PrintLevel :=
  if s = "pickup" then some .pickup
  else if s = "obituary" then some .obituary
  else if s = "high" then some .high
  else if s = "chat" then some .chat
  else if s = "teamchat" then some .teamchat
  else if s = "serverchat" then some .serverchat
  else if s = "warning" then some .warning
  else if s = "error" then some .error
  else none

/-- Deserialize a `PrintLevel` from its lowercase wire name. -/
def decodePrintLevel : Json → Except String PrintLevel
  | .str s =>
    match printLevelOfName s with
    | some pl => .ok pl
    | none => .error "unknown variant for printlevel"
  | _ => .error "invalid type: expected a printlevel string"

/-- Field loop of the derived deserializer for the `Print` struct
variant: scan the entries in order, filling `printlevel` and `text`,
failing on a duplicate of either, ignoring unknown fields (serde's
default), and requiring both at the end. -/
def decodePrintFields : List (String × Json) → Option PrintLevel → Option String →
    Except String ServerMessageType
  | [], some pl, some t => .ok (.print pl t)
  | [], none, _ => .error "missing field printlevel"
  | [], some _, none => .error "missing field text"
  | (k, v) :: rest, pl?, t? =>
    if k = "printlevel" then
      match pl? with
      | some _ => .error "duplicate field printlevel"
      | none =>
        match decodePrintLevel v with
        | .error e => .error e
        | .ok pl => decodePrintFields rest (some pl) t?
    else if k = "text" then
      match t? with
      | some _ => .error "duplicate field text"
      | none =>
        match v with
        | .str t => decodePrintFields rest pl? (some t)
        | _ => .error "invalid type: expected a string for text"
    else decodePrintFields rest pl? t?

/-- Payload decoding for a server content variant with a known tag. -/
def decodeServerContent : String → Option Json → Except String ServerMessageType
  | "login_response", some v => (decodeU64 v).map .loginResponse
  | "login_response", none => .error "missing field content"
  | "login_failure", some v => (decodeString v).map .loginFailure
  | "login_failure", none => .error "missing field content"
  | "login_success", c => (decodeUnit c).map fun _ => .loginSuccess
  | "print", some (.obj fields) => decodePrintFields fields none none
  | "print", some _ => .error "invalid type: expected a map for print"
  | "print", none => .error "missing field content"
  | "maplist", c => (decodeUnit c).map fun _ => .maplist
  | _, _ => .error "unknown variant"

/-- Payload decoding for a client content variant with a known tag.  The
`login_request` payload is a string decoded by `ProtocolVersion`'s
custom deserializer. -/
def decodeClientContent : String → Option Json → Except String ClientMessageType
  | "login_request", some v =>
    match decodeString v with
    | .error e => .error e
    | .ok s => (ProtocolVersion.fromString s).map .loginRequest
  | "login_request", none => .error "missing field content"
  | "login_password", some v => (decodeString v).map .loginPassword
  | "login_password", none => .error "missing field content"
  | "command", some v => (decodeString v).map .command
  | "command", none => .error "missing field content"
  | "maplist", c => (decodeUnit c).map fun _ => .maplist
  | _, _ => .error "unknown variant"

/-- Known wire tags of server messages. -/
def serverTags : List String :=
  ["login_response", "login_failure", "login_success", "print", "maplist"]

/-- Known wire tags of client messages. -/
def clientTags : List String :=
  ["login_request", "login_password", "command", "maplist"]

/-- Envelope deserializer shared by both directions, mirroring the
serde derive for `Message<T>` with `#[serde(flatten)]` over an
adjacently tagged `T`: the value must be an object; `id` must be present
once and be a non-negative integer fitting `usize`; the buffered
remaining entries must contain exactly one `type` whose string value is
a known tag; at most one `content` entry supplies the payload; every
other key is ignored.  serde scans entries sequentially and reports the
first offending entry, which accepts and rejects exactly the same
objects as the duplicate counts plus first-occurrence lookups used
here (only the error message text can differ). -/
def decodeMessageWith (decContent : String → Option Json → Except String T)
    (tags : List String) (j : Json) : Except String (Message T) :=
  match j with
  | .obj fields =>
    if 2 ≤ countKey fields "id" then .error "duplicate field id"
    else if 2 ≤ countKey fields "type" then .error "duplicate field type"
    else if 2 ≤ countKey fields "content" then .error "duplicate field content"
    else
      match objFieldList fields "id" with
      | none => .error "missing field id"
      | some idv =>
        match decodeU64 idv with
        | .error e => .error e
        | .ok idn =>
          match objFieldList fields "type" with
          | none => .error "missing field type"
          | some (.str t) =>
            if t ∈ tags then
              match decContent t (objFieldList fields "content") with
              | .ok c => .ok ⟨c, idn⟩
              | .error e => .error e
            else .error "unknown variant"
          | some _ => .error "invalid type: the tag must be a string"
  | _ => .error "invalid type: expected a map"

/-- Deserializer for server messages. -/
def decodeServerMessage : Json → Except String (Message ServerMessageType) :=
  decodeMessageWith decodeServerContent serverTags

/-- Deserializer for client messages. -/
def decodeClientMessage : Json → Except String (Message ClientMessageType) :=
  decodeMessageWith decodeClientContent clientTags

/-!  The `serde_json` text layer: a recursive-descent parser for JSON
text.  The nesting recursion is fueled so that every definition stays
structural and kernel-evaluable; `jsonParse` supplies one unit of fuel
per input character, which is always sufficient since each nesting step
consumes at least one character. -/

/-- JSON whitespace accepted between tokens. -/
def isWsChar (c : Char) : Bool :=
  c == ' ' || c == '\t' || c == '\n' || c == '\r'

/-- Drop leading JSON whitespace. -/
def skipWs : List Char → List Char
  | [] => []
  | c :: rest => if isWsChar c then skipWs rest else c :: rest

/-- Numeric value of a hexadecimal digit, `none` otherwise. -/
def hexVal? (c : Char) : Option Nat :=
  if 48 ≤ c.toNat ∧ c.toNat ≤ 57 then some (c.toNat - 48)
  else if 97 ≤ c.toNat ∧ c.toNat ≤ 102 then some (c.toNat - 87)
  else if 65 ≤ c.toNat ∧ c.toNat ≤ 70 then some (c.toNat - 55)
  else none

/-- Decoded character of a non-`u` escape, when the escape is legal. -/
def shortEscape? (e : Char) : Option Char :=
  if e = '"' then some '"'
  else if e = '\\' then some '\\'
  else if e = '/' then some '/'
  else if e = 'b' then some (Char.ofNat 8)
  else if e = 'f' then some (Char.ofNat 12)
  else if e = 'n' then some '\n'
  else if e = 'r' then some (Char.ofNat 13)
  else if e = 't' then some '\t'
  else none

/-- Hexadecimal value of four digits, `none` when any is not hex. -/
def hex4 (a b c d : Char) : Option Nat :=
  (hexVal? a).bind fun va =>
    (hexVal? b).bind fun vb =>
      (hexVal? c).bind fun vc =>
        (hexVal? d).map fun vd => ((va * 16 + vb) * 16 + vc) * 16 + vd

mutual

/-- Body of a JSON string literal, read after the opening quote up to
and including the closing quote: handles the short escapes, `\uXXXX`
escapes with surrogate pairs, rejects lone surrogates, raw control
characters and truncated input, and returns the decoded characters with
the remaining input. -/
def parseStringBody : List Char → Except String (List Char × List Char)
  | [] => .error "eof while parsing a string"
  | c :: rest =>
    if c = '"' then .ok ([], rest)
    else if c = '\\' then parseEscape rest
    else if c.toNat < 32 then .error "control character in string"
    else (parseStringBody rest).map fun p => (c :: p.1, p.2)

/-- One escape sequence, read after the backslash. -/
def parseEscape : List Char → Except String (List Char × List Char)
  | [] => .error "eof in escape"
  | e :: rest =>
    match shortEscape? e with
    | some decoded => (parseStringBody rest).map fun p => (decoded :: p.1, p.2)
    | none =>
      if e = 'u' then parseHexEscape rest
      else .error "invalid escape"

/-- One `\uXXXX` escape, read after the `\u`. -/
def parseHexEscape : List Char → Except String (List Char × List Char)
  | a :: b :: c :: d :: rest =>
    match hex4 a b c d with
    | some v =>
      if 55296 ≤ v ∧ v < 56320 then parseLowSurrogate v rest
      else if 56320 ≤ v ∧ v < 57344 then .error "lone trailing surrogate"
      else (parseStringBody rest).map fun p => (Char.ofNat v :: p.1, p.2)
    | none => .error "invalid hex escape"
  | _ => .error "invalid hex escape"

/-- The low half of a surrogate pair, read after a high surrogate
`\uXXXX`. -/
def parseLowSurrogate (v : Nat) : List Char → Except String (List Char × List Char)
  | e1 :: e2 :: a2 :: b2 :: c2 :: d2 :: rest =>
    if e1 = '\\' ∧ e2 = 'u' then
      match hex4 a2 b2 c2 d2 with
      | some w =>
        if 56320 ≤ w ∧ w < 57344 then
          (parseStringBody rest).map fun p =>
            (Char.ofNat (65536 + (v - 55296) * 1024 + (w - 56320)) :: p.1, p.2)
        else .error "invalid surrogate pair"
      | none => .error "invalid hex escape"
    else .error "unexpected end of surrogate pair"
  | _ => .error "unexpected end of surrogate pair"

end

/-- Accumulate a maximal run of decimal digits onto `acc`. -/
def parseDigitsAcc : List Char → Nat → Nat × List Char
  | [], acc => (acc, [])
  | c :: rest, acc =>
    if isDigitChar c then parseDigitsAcc rest (acc * 10 + (c.toNat - 48))
    else (acc, c :: rest)

/-- Drop a maximal run of decimal digits. -/
def skipDigits : List Char → List Char
  | [] => []
  | c :: rest => if isDigitChar c then skipDigits rest else c :: rest

/-- Whether the input starts with a decimal digit. -/
def headIsDigit : List Char → Bool
  | c :: _ => isDigitChar c
  | [] => false

/-- Exponent part of a JSON number, read after `e`/`E`: an optional
sign then one or more digits. -/
def parseExpPart (l : List Char) : Except String (List Char) :=
  match l with
  | [] => .error "invalid number"
  | c :: rest =>
    if c = '+' ∨ c = '-' then
      if headIsDigit rest then .ok (skipDigits rest) else .error "invalid number"
    else if headIsDigit (c :: rest) then .ok (skipDigits (c :: rest))
    else .error "invalid number"

/-- Fraction and exponent tail of a JSON number, read after the integer
part; the boolean reports whether either was present (making the number
a float). -/
def parseNumTail (l : List Char) : Except String (Bool × List Char) :=
  match l with
  | [] => .ok (false, [])
  | c :: rest =>
    if c = '.' then
      if headIsDigit rest then
        match skipDigits rest with
        | [] => .ok (true, [])
        | c2 :: r2 =>
          if c2 = 'e' ∨ c2 = 'E' then (parseExpPart r2).map ((true, ·))
          else .ok (true, c2 :: r2)
      else .error "invalid number"
    else if c = 'e' ∨ c = 'E' then (parseExpPart rest).map ((true, ·))
    else .ok (false, c :: rest)

/-- Classify a lexed number the way serde_json does: any fraction or
exponent gives an `f64` (`fnum`), a plain integer gives `u64` when
non-negative and in range, `i64` when negative and in range, and
falls back to `f64` (`fnum`) outside both ranges. -/
def classifyNumber (neg : Bool) (n : Nat) (isFloat : Bool) : Json :=
  if isFloat then .fnum
  else if neg then (if n ≤ 2 ^ 63 then .num (-(n : Int)) else .fnum)
  else (if n < 2 ^ 64 then .num (n : Int) else .fnum)

/-- Integer part and tail of a JSON number after an optional sign,
rejecting leading zeros as serde_json does. -/
def parseNumCore (l : List Char) (neg : Bool) : Except String (Json × List Char) :=
  match l with
  | [] => .error "invalid number"
  | c :: rest =>
    if c = '0' then
      if headIsDigit rest then .error "invalid number"
      else (parseNumTail rest).map fun p => (classifyNumber neg 0 p.1, p.2)
    else if isDigitChar c then
      let p := parseDigitsAcc rest (c.toNat - 48)
      (parseNumTail p.2).map fun q => (classifyNumber neg p.1 q.1, q.2)
    else .error "invalid number"

/-- A JSON number with its optional leading minus sign. -/
def parseNumber : List Char → Except String (Json × List Char)
  | [] => .error "invalid number"
  | c :: rest => if c = '-' then parseNumCore rest true else parseNumCore (c :: rest) false

/-- Drop an expected literal prefix, `none` when the input does not
start with it. -/
def dropLit : List Char → List Char → Option (List Char)
  | [], l => some l
  | _ :: _, [] => none
  | e :: es, c :: cs => if c = e then dropLit es cs else none

mutual

/-- One JSON value, skipping leading whitespace. -/
def parseValue : Nat → List Char → Except String (Json × List Char)
  | 0, _ => .error "recursion limit exceeded"
  | fuel + 1, input =>
    match skipWs input with
    | [] => .error "eof while parsing a value"
    | c :: rest =>
      if c = 'n' then
        match dropLit ['u', 'l', 'l'] rest with
        | some r2 => .ok (.null, r2)
        | none => .error "expected a value"
      else if c = 't' then
        match dropLit ['r', 'u', 'e'] rest with
        | some r2 => .ok (.bool true, r2)
        | none => .error "expected a value"
      else if c = 'f' then
        match dropLit ['a', 'l', 's', 'e'] rest with
        | some r2 => .ok (.bool false, r2)
        | none => .error "expected a value"
      else if c = '"' then
        (parseStringBody rest).map fun p => (.str (String.mk p.1), p.2)
      else if c = '{' then
        match skipWs rest with
        | [] => .error "eof while parsing an object"
        | c2 :: r2 =>
          if c2 = '}' then .ok (.obj [], r2)
          else (parseMembers fuel (c2 :: r2)).map fun p => (.obj p.1, p.2)
      else if c = '[' then
        match skipWs rest with
        | [] => .error "eof while parsing an array"
        | c2 :: r2 =>
          if c2 = ']' then .ok (.arr [], r2)
          else (parseItems fuel (c2 :: r2)).map fun p => (.arr p.1, p.2)
      else if c = '-' ∨ isDigitChar c then parseNumber (c :: rest)
      else .error "expected a value"

/-- One or more `"key":value` object members followed by the closing
brace, starting at a key. -/
def parseMembers : Nat → List Char → Except String (List (String × Json) × List Char)
  | 0, _ => .error "recursion limit exceeded"
  | fuel + 1, input =>
    match skipWs input with
    | [] => .error "expected an object key"
    | c :: rest =>
      if c = '"' then
        match parseStringBody rest with
        | .error e => .error e
        | .ok (key, r1) =>
          match skipWs r1 with
          | [] => .error "expected a colon"
          | c2 :: r2 =>
            if c2 = ':' then
              match parseValue fuel r2 with
              | .error e => .error e
              | .ok (v, r3) =>
                match skipWs r3 with
                | [] => .error "expected a comma or a closing brace"
                | c3 :: r4 =>
                  if c3 = ',' then
                    (parseMembers fuel r4).map fun p => ((String.mk key, v) :: p.1, p.2)
                  else if c3 = '}' then .ok ([(String.mk key, v)], r4)
                  else .error "expected a comma or a closing brace"
            else .error "expected a colon"
      else .error "expected an object key"

/-- One or more array items followed by the closing bracket. -/
def parseItems : Nat → List Char → Except String (List Json × List Char)
  | 0, _ => .error "recursion limit exceeded"
  | fuel + 1, input =>
    match parseValue fuel input with
    | .error e => .error e
    | .ok (v, r1) =>
      match skipWs r1 with
      | [] => .error "expected a comma or a closing bracket"
      | c2 :: r2 =>
        if c2 = ',' then (parseItems fuel r2).map fun p => (v :: p.1, p.2)
        else if c2 = ']' then .ok ([v], r2)
        else .error "expected a comma or a closing bracket"

end

/-- `serde_json::from_str`'s text layer: parse one JSON value and
require only whitespace to follow. -/
def jsonParse (s : String) : Except String Json :=
  match parseValue (s.data.length + 1) s.data with
  | .error e => .error e
  | .ok (v, rest) =>
    match skipWs rest with
    | [] => .ok v
    | _ => .error "trailing characters"

/-- `Message::from_str` (`serde_json::from_str`) for server messages. -/
def parseServerMessage (s : String) : Except String (Message ServerMessageType) :=
  match jsonParse s with
  | .error e => .error e
  | .ok j => decodeServerMessage j

/-- `Message::from_str` for client messages. -/
def parseClientMessage (s : String) : Except String (Message ClientMessageType) :=
  match jsonParse s with
  | .error e => .error e
  | .ok j => decodeClientMessage j

/-!  The transport session, from `src/socket.rs`.  The concurrent
reader and writer tasks are modelled as pure functions from the
sequence of events each observes to the sequence of `on_log` callback
invocations and transmitted frames it produces. -/

/-- One `on_log` invocation: the delivered text and the optional
severity classification. -/
abbrev LogCall := String × Option PrintLevel

/-- Frames the websocket stream can yield (tungstenite's `Message`);
payloads the reader never inspects are dropped. -/
inductive WsIncoming where
  | text (s : String)
  | binary
  | ping
  | pong
  | frame
  | close
deriving DecidableEq

/-- Handling of one inbound text frame by the reader loop: parse it as
a server message; deliver a `Print` variant as `(text, Some(printlevel))`,
any other variant as the `Received:` description with no classification,
and a parse failure as the `Received invalid message:` description with
no classification. -/
def handleText (txt : String) : List LogCall :=
  match parseServerMessage txt with
  | .ok m =>
    match m.content with
    | .print pl text => [(text, some pl)]
    | _ => [("Received: " ++ displayServerMessage m ++ "\n", none)]
  | .error e => [("Received invalid message: " ++ txt ++ "\n" ++ e ++ "\n", none)]

/-- The reader loop over the stream of results it observes: text frames
are handled, binary frames and every event matched by the `_` arm
(ping, pong, raw frames, stream errors) are dropped, and a close frame
logs a closure notice and breaks; the end of the stream ends the loop
with no log. -/
def runReader : List (Except String WsIncoming) → List LogCall
  | [] => []
  | ev :: rest =>
    match ev with
    | .ok (.text txt) => handleText txt ++ runReader rest
    | .ok .binary => runReader rest
    | .ok .close => [("Connection to server has been closed\n", none)]
    | _ => runReader rest

/-- `Message::new`: allocate the next id from the process-wide
`AtomicUsize` counter via `fetch_add(1, Ordering::Relaxed)`.  A `static`
inside a generic Rust function is a single item shared by every
instantiation, so both message directions draw from this one counter.
The atomic's state is threaded explicitly; `usize` arithmetic wraps at
`2^64`. -/
def newMessageWith (content : T) (counter : Nat) : Message T × Nat :=
  (⟨content, counter % 2 ^ 64⟩, (counter + 1) % 2 ^ 64)

/-- A content value of either direction, as fed to `Message::new`. -/
abbrev AnyContent := ClientMessageType ⊕ ServerMessageType

/-- A constructed message of either direction. -/
abbrev AnyMessage := Message ClientMessageType ⊕ Message ServerMessageType

/-- `Message::new` on a content value of either direction. -/
def newAnyMessage : AnyContent → Nat → AnyMessage × Nat
  | .inl c, s => ((newMessageWith c s).1 |> Sum.inl, (newMessageWith c s).2)
  | .inr c, s => ((newMessageWith c s).1 |> Sum.inr, (newMessageWith c s).2)

/-- Construct a sequence of messages against the shared counter. -/
def newMessages : List AnyContent → Nat → List AnyMessage × Nat
  | [], s => ([], s)
  | c :: rest, s =>
    ((newAnyMessage c s).1 :: (newMessages rest (newAnyMessage c s).2).1,
     (newMessages rest (newAnyMessage c s).2).2)

/-- Envelope id of a constructed message of either direction. -/
def anyId : AnyMessage → Nat
  | .inl m => m.id
  | .inr m => m.id

/-- Connection url built by `connect`: `format!("ws://{}:{}", host, port)`. -/
def wsUrl (host : String) (port : Nat) : String :=
  "ws://" ++ host ++ ":" ++ String.mk (natChars port)

/-- The outbound path: each `send(content)` wraps the content in a new
envelope drawing the next shared-counter id, serializes it, and the
writer task transmits the serialized strings in FIFO queue order, one
text frame each. -/
def outboundFrames : List ClientMessageType → Nat → List String × Nat
  | [], s => ([], s)
  | c :: rest, s =>
    (serializeClient (newMessageWith c s).1 ::
       (outboundFrames rest (newMessageWith c s).2).1,
     (outboundFrames rest (newMessageWith c s).2).2)

/-- Observable outcome of one session: the request url, the attached
`Sec-WebSocket-Protocol` header value, the frames the writer transmits
for the enqueued outbound contents, and the `on_log` calls. -/
structure SessionTrace where
  url : String
  subprotocol : String
  transmitted : List String
  logs : List LogCall
deriving DecidableEq

/-- `RCONSocket::connect`, with the url-to-request conversion
(`IntoClientRequest`, library code outside this repository) abstracted
as `icr`.  The body builds the url, converts it to a request — returning
the error synchronously, before any task is spawned, when that fails —
and otherwise spawns the session task (which itself spawns the writer
task, hence two tasks counted) and returns the handle.  The `password`
parameter is accepted and never read, exactly as in the source.  The
connect-time log line and the reader's logs form the callback trace. -/
def connectModel (icr : String → Option Unit) (host : String) (port : Nat)
    (password : String) (outbound : List ClientMessageType) (startCounter : Nat)
    (inbound : List (Except String WsIncoming)) :
    Except String SessionTrace × Nat :=
  match icr (wsUrl host port) with
  | none => (.error "Websocket error: invalid client request", 0)
  | some _ =>
    (.ok { url := wsUrl host port
           subprotocol := "odamex-rcon"
           transmitted := (outboundFrames outbound startCounter).1
           logs := ("Connected to odamex server!\n", none) :: runReader inbound },
     2)

/-!  Theorems. -/

/-- C4: serialization of a well-formed in-memory message is total — it
is a plain function of the message with no failing path, so the `unwrap`
in `Message::serialize` can never be reached in the model — and, by
cases on all nine content variants of both directions, it produces the
JSON object with the snake_case string tag, the payload under the
`content` key (omitted for the no-payload variants), and the numeric
`id`, with `ProtocolVersion` payloads encoded as the string
`"major.minor.revision"`. -/
theorem c4_serialize_total_and_shape :
    (∀ i n, encodeServerMessage ⟨.loginResponse n, i⟩ =
        .obj [("type", .str "login_response"), ("content", .num n), ("id", .num i)]) ∧
    (∀ i s, encodeServerMessage ⟨.loginFailure s, i⟩ =
        .obj [("type", .str "login_failure"), ("content", .str s), ("id", .num i)]) ∧
    (∀ i, encodeServerMessage ⟨.loginSuccess, i⟩ =
        .obj [("type", .str "login_success"), ("id", .num i)]) ∧
    (∀ i pl t, encodeServerMessage ⟨.print pl t, i⟩ =
        .obj [("type", .str "print"),
              ("content", .obj [("printlevel", .str pl.toWire), ("text", .str t)]),
              ("id", .num i)]) ∧
    (∀ i, encodeServerMessage ⟨.maplist, i⟩ =
        .obj [("type", .str "maplist"), ("id", .num i)]) ∧
    (∀ i v, encodeClientMessage ⟨.loginRequest v, i⟩ =
        .obj [("type", .str "login_request"), ("content", .str v.toWire), ("id", .num i)]) ∧
    (∀ i s, encodeClientMessage ⟨.loginPassword s, i⟩ =
        .obj [("type", .str "login_password"), ("content", .str s), ("id", .num i)]) ∧
    (∀ i s, encodeClientMessage ⟨.command s, i⟩ =
        .obj [("type", .str "command"), ("content", .str s), ("id", .num i)]) ∧
    (∀ i, encodeClientMessage ⟨.maplist, i⟩ =
        .obj [("type", .str "maplist"), ("id", .num i)]) ∧
    (∀ m, serializeServer m = jsonToString (encodeServerMessage m)) ∧
    (∀ m, serializeClient m = jsonToString (encodeClientMessage m)) ∧
    (∀ v : ProtocolVersion, v.toWire =
        String.mk (natChars v.major ++ '.' :: natChars v.minor ++ '.' :: natChars v.revision)) ∧
    ProtocolVersion.toWire ⟨1, 0, 0⟩ = "1.0.0" :=
  ⟨fun _ _ => rfl, fun _ _ => rfl, fun _ => rfl, fun _ _ _ => rfl, fun _ => rfl,
   fun _ _ => rfl, fun _ _ => rfl, fun _ _ => rfl, fun _ => rfl,
   fun _ => rfl, fun _ => rfl, fun _ => rfl, by decide⟩

/-- C9: `connect` accepts the password but never reads it, so every
observable of the session — the connection request url, the attached
subprotocol header, the transmitted frames and the callback
invocations — is identical for any two password values with otherwise
identical inputs. -/
theorem c9_password_noninterference (icr : String → Option Unit) (host : String)
    (port : Nat) (pw1 pw2 : String) (outbound : List ClientMessageType)
    (startCounter : Nat) (inbound : List (Except String WsIncoming)) :
    connectModel icr host port pw1 outbound startCounter inbound =
      connectModel icr host port pw2 outbound startCounter inbound := rfl

/-- C10: the reader path invokes the callback only for text and close
frames: binary, ping, pong and raw frames as well as stream errors
produce no callback and the loop continues; a close frame logs the
closure notice and ends the loop, and the end of the stream ends it
silently. -/
theorem c10_reader_callback_discipline :
    runReader [] = [] ∧
    (∀ rest, runReader (.ok .binary :: rest) = runReader rest) ∧
    (∀ rest, runReader (.ok .ping :: rest) = runReader rest) ∧
    (∀ rest, runReader (.ok .pong :: rest) = runReader rest) ∧
    (∀ rest, runReader (.ok .frame :: rest) = runReader rest) ∧
    (∀ e rest, runReader (.error e :: rest) = runReader rest) ∧
    (∀ rest, runReader (.ok .close :: rest) =
        [("Connection to server has been closed\n", none)]) ∧
    (∀ txt rest, runReader (.ok (.text txt) :: rest) = handleText txt ++ runReader rest) :=
  ⟨rfl, fun _ => rfl, fun _ => rfl, fun _ => rfl, fun _ => rfl, fun _ _ => rfl,
   fun _ => rfl, fun _ _ => rfl⟩

/-- C6: an inbound text frame that fails to parse as a server message
is delivered to the callback as a single descriptive error line with no
classification, the frame is discarded, and the reader continues with
the subsequent frames rather than terminating. -/
theorem c6_parse_failure_logged_continues (txt e : String)
    (rest : List (Except String WsIncoming))
    (h : parseServerMessage txt = .error e) :
    runReader (.ok (.text txt) :: rest) =
      ("Received invalid message: " ++ txt ++ "\n" ++ e ++ "\n", none) :: runReader rest := by
  show handleText txt ++ runReader rest = _
  simp [handleText, h]

/-- Witness for C6 at the unparseable frame `"oops"`, followed by a
close frame the reader goes on to process. -/
theorem c6_parse_failure_logged_continues_witness :
    parseServerMessage "oops" = .error "expected a value" ∧
    runReader [.ok (.text "oops"), .ok .close] =
      ("Received invalid message: " ++ "oops" ++ "\n" ++ "expected a value" ++ "\n", none) ::
        runReader [.ok .close] :=
  ⟨rfl, c6_parse_failure_logged_continues "oops" "expected a value" [.ok .close] rfl⟩

/-- C7: `connect` with a host for which request construction fails
returns the error synchronously with no task spawned; when request
construction succeeds the returned result is already `Ok` — fixed
before either task runs — so nothing that happens on the session's
reader or writer path can surface through it, only through the logged
callback trace. -/
theorem c7_connect_error_synchrony :
    (∀ icr host port pw outbound s inbound,
        icr (wsUrl host port) = none →
        connectModel icr host port pw outbound s inbound =
          (.error "Websocket error: invalid client request", 0)) ∧
    (∀ icr host port pw outbound s inbound,
        icr (wsUrl host port) = some () →
        connectModel icr host port pw outbound s inbound =
          (.ok { url := wsUrl host port
                 subprotocol := "odamex-rcon"
                 transmitted := (outboundFrames outbound s).1
                 logs := ("Connected to odamex server!\n", none) :: runReader inbound },
           2)) := by
  constructor
  · intro icr host port pw outbound s inbound h
    simp [connectModel, h]
  · intro icr host port pw outbound s inbound h
    simp [connectModel, h]

/-- Witness for C7: a failing request conversion yields the synchronous
error and zero spawned tasks. -/
theorem c7_connect_error_synchrony_witness :
    ((fun _ : String => (none : Option Unit)) (wsUrl "example com" 11666) = none) ∧
    connectModel (fun _ => none) "example com" 11666 "" [] 0 [] =
      (.error "Websocket error: invalid client request", 0) :=
  ⟨rfl, c7_connect_error_synchrony.1 (fun _ => none) "example com" 11666 "" [] 0 [] rfl⟩

/-- Id and successor counter of a single allocation, for either
direction. -/
theorem newAnyMessage_spec (c : AnyContent) (s : Nat) :
    anyId (newAnyMessage c s).1 = s % 2 ^ 64 ∧ (newAnyMessage c s).2 = (s + 1) % 2 ^ 64 := by
  cases c <;> exact ⟨rfl, rfl⟩

/-- Ids allocated by a run of constructions starting at counter value
`s` are exactly `s, s+1, ...` while the counter stays below the usize
wrap. -/
theorem newMessages_ids (xs : List AnyContent) :
    ∀ s, s + xs.length ≤ 2 ^ 64 →
      (newMessages xs s).1.map anyId = List.range' s xs.length := by
  induction xs with
  | nil => intro s h; rfl
  | cons c rest ih =>
    intro s h
    have hlen : (c :: rest).length = rest.length + 1 := rfl
    have hs : s < 2 ^ 64 := by omega
    have hid : anyId (newAnyMessage c s).1 = s := by
      rw [(newAnyMessage_spec c s).1, Nat.mod_eq_of_lt hs]
    have hnext : (newAnyMessage c s).2 = (s + 1) % 2 ^ 64 := (newAnyMessage_spec c s).2
    show anyId (newAnyMessage c s).1 ::
        (newMessages rest (newAnyMessage c s).2).1.map anyId = _
    rcases Nat.lt_or_ge (s + 1) (2 ^ 64) with h2 | h2
    · rw [hid, hnext, Nat.mod_eq_of_lt h2, ih (s + 1) (by omega), hlen, List.range'_succ]
    · have hrest : rest.length = 0 := by omega
      rw [List.length_eq_zero] at hrest
      subst hrest
      rw [hid]
      rfl


/-- C8: message ids come from the single process-wide counter shared by
both directions: starting from 0, each constructed message receives the
current counter value and the counter increments by one, so within any
run shorter than the usize wrap the n-th constructed message has id
n-1 and no id is ever reused. -/
theorem c8_message_id_counter :
    (∀ xs s, s + xs.length ≤ 2 ^ 64 →
        (newMessages xs s).1.map anyId = List.range' s xs.length) ∧
    (∀ xs, xs.length ≤ 2 ^ 64 →
        (newMessages xs 0).1.map anyId = List.range xs.length ∧
        ((newMessages xs 0).1.map anyId).Nodup) := by
  refine ⟨fun xs s h => newMessages_ids xs s h, fun xs h => ?_⟩
  have hids := newMessages_ids xs 0 (by omega)
  rw [List.range_eq_range']
  exact ⟨hids, by rw [hids]; exact List.nodup_range' 0 xs.length⟩

/-- Witness for C8: three messages of mixed direction constructed from
counter value 0 get ids 0, 1, 2. -/
theorem c8_message_id_counter_witness :
    ([Sum.inl (ClientMessageType.command "echo"), Sum.inr ServerMessageType.loginSuccess,
        Sum.inl ClientMessageType.maplist] : List AnyContent).length ≤ 2 ^ 64 ∧
    (newMessages [Sum.inl (ClientMessageType.command "echo"),
        Sum.inr ServerMessageType.loginSuccess, Sum.inl ClientMessageType.maplist] 0).1.map anyId =
      List.range 3 :=
  ⟨by norm_num,
   (c8_message_id_counter.2 [Sum.inl (ClientMessageType.command "echo"),
      Sum.inr ServerMessageType.loginSuccess, Sum.inl ClientMessageType.maplist]
      (by norm_num)).1⟩

/-- One step of decimal accumulation. -/
def accDigit (a : Nat) (c : Char) : Nat := a * 10 + (c.toNat - 48)

/-- Decimal value of a digit list. -/
def charsVal (l : List Char) : Nat := l.foldl accDigit 0

/-- A character list is a numeral Rust's `u8::from_str` accepts: an
optional leading `+`, then one or more decimal digits, with value at
most 255. -/
def validU8Segment (l : List Char) : Prop :=
  ∃ ds : List Char, (l = ds ∨ l = '+' :: ds) ∧ ds ≠ [] ∧
    (∀ c ∈ ds, isDigitChar c = true) ∧ charsVal ds ≤ 255

theorem foldl_accDigit_le (l : List Char) : ∀ acc, acc ≤ l.foldl accDigit acc := by
  induction l with
  | nil => intro acc; exact Nat.le_refl acc
  | cons c t ih =>
    intro acc
    calc acc ≤ accDigit acc c := by unfold accDigit; omega
    _ ≤ t.foldl accDigit (accDigit acc c) := ih _
    _ = (c :: t).foldl accDigit acc := rfl

theorem parseU8Digits_sound (l : List Char) : ∀ acc n, parseU8Digits l acc = some n →
    (∀ c ∈ l, isDigitChar c = true) ∧ n = l.foldl accDigit acc ∧ (acc ≤ 255 → n ≤ 255) := by
  induction l with
  | nil =>
    intro acc n h
    have hacc : acc = n := by simpa [parseU8Digits] using h
    subst hacc
    exact ⟨by simp, rfl, fun hacc => hacc⟩
  | cons c t ih =>
    intro acc n h
    unfold parseU8Digits at h
    by_cases hc : isDigitChar c = true
    · rw [if_pos hc] at h
      by_cases hover : 255 < acc * 10 + (c.toNat - 48)
      · rw [if_pos hover] at h
        exact absurd h (by simp)
      · rw [if_neg hover] at h
        obtain ⟨hdig, hval, hbound⟩ := ih _ n h
        refine ⟨?_, hval, fun _ => hbound (by omega)⟩
        intro c' hc'
        rcases List.mem_cons.mp hc' with rfl | hmem
        · exact hc
        · exact hdig c' hmem
    · rw [if_neg hc] at h
      exact absurd h (by simp)

theorem parseU8Digits_complete (l : List Char) : ∀ acc,
    (∀ c ∈ l, isDigitChar c = true) → l.foldl accDigit acc ≤ 255 →
    parseU8Digits l acc = some (l.foldl accDigit acc) := by
  induction l with
  | nil => intro acc _ _; rfl
  | cons c t ih =>
    intro acc hdig hle
    have hc : isDigitChar c = true := hdig c (List.mem_cons_self c t)
    have hfold : (c :: t).foldl accDigit acc = t.foldl accDigit (accDigit acc c) := rfl
    have hstep : accDigit acc c = acc * 10 + (c.toNat - 48) := rfl
    have hmono : acc * 10 + (c.toNat - 48) ≤ t.foldl accDigit (accDigit acc c) :=
      hstep ▸ foldl_accDigit_le t (accDigit acc c)
    rw [hfold] at hle
    have hnotover : ¬ 255 < acc * 10 + (c.toNat - 48) := by omega
    unfold parseU8Digits
    rw [if_pos hc, if_neg hnotover, hfold, ← hstep]
    exact ih (accDigit acc c) (fun c' hc' => hdig c' (List.mem_cons_of_mem c hc')) hle

theorem plus_not_digit : isDigitChar '+' = false := rfl

theorem parseRustU8_eq_digits (c : Char) (rest : List Char) (h : c ≠ '+') :
    parseRustU8 (c :: rest) = parseU8Digits (c :: rest) 0 := by
  simp only [parseRustU8]
  rw [if_neg h]

theorem parseRustU8_plus (rest : List Char) (h : rest ≠ []) :
    parseRustU8 ('+' :: rest) = parseU8Digits rest 0 := by
  simp only [parseRustU8]
  rw [if_pos trivial]
  cases rest with
  | nil => exact absurd rfl h
  | cons r t => rfl

theorem parseRustU8_some_iff (l : List Char) :
    (∃ n, parseRustU8 l = some n) ↔ validU8Segment l := by
  constructor
  · rintro ⟨n, h⟩
    cases l with
    | nil => exact absurd h (by simp [parseRustU8])
    | cons c rest =>
      by_cases hplus : c = '+'
      · subst hplus
        cases rest with
        | nil => exact absurd h (by simp [parseRustU8])
        | cons r t =>
          rw [parseRustU8_plus (r :: t) (by simp)] at h
          obtain ⟨hdig, hval, hbound⟩ := parseU8Digits_sound (r :: t) 0 n h
          refine ⟨r :: t, Or.inr rfl, by simp, hdig, ?_⟩
          have hb := hbound (by omega)
          unfold charsVal
          omega
      · rw [parseRustU8_eq_digits c rest hplus] at h
        obtain ⟨hdig, hval, hbound⟩ := parseU8Digits_sound (c :: rest) 0 n h
        refine ⟨c :: rest, Or.inl rfl, by simp, hdig, ?_⟩
        have hb := hbound (by omega)
        unfold charsVal
        omega
  · rintro ⟨ds, hshape, hne, hdig, hle⟩
    have hcomp := parseU8Digits_complete ds 0 hdig hle
    rcases hshape with hsh | hsh
    · rw [hsh]
      cases ds with
      | nil => exact absurd rfl hne
      | cons c rest =>
        have hplus : c ≠ '+' := by
          intro hc
          have hcdig := hdig c (List.mem_cons_self c rest)
          rw [hc] at hcdig
          exact absurd hcdig (by decide)
        exact ⟨_, by rw [parseRustU8_eq_digits c rest hplus]; exact hcomp⟩
    · rw [hsh]
      exact ⟨_, by rw [parseRustU8_plus ds hne]; exact hcomp⟩

/-- Evaluation of `ProtocolVersion.fromString` once the split is known
to have exactly three segments. -/
theorem fromString_eq_of_split (s : String) (a b c : List Char)
    (h : splitOnDot s.data = [a, b, c]) :
    ProtocolVersion.fromString s =
      (match parseRustU8 a with
       | none => .error "Invalid major version"
       | some major =>
         match parseRustU8 b with
         | none => .error "Invalid minor version"
         | some minor =>
           match parseRustU8 c with
           | none => .error "Invalid revision version"
           | some revision => .ok ⟨major, minor, revision⟩) := by
  unfold ProtocolVersion.fromString
  rw [h]

/-- Evaluation of `ProtocolVersion.fromString` when the split does not
have exactly three segments. -/
theorem fromString_eq_error_of_split (s : String)
    (h : (splitOnDot s.data).length ≠ 3) :
    ProtocolVersion.fromString s = .error "Expected format 'major.minor.revision'" := by
  unfold ProtocolVersion.fromString
  rcases hs : splitOnDot s.data with _ | ⟨a, _ | ⟨b, _ | ⟨c, _ | ⟨d, t⟩⟩⟩⟩ <;>
    first
      | rfl
      | (exact absurd (by rw [hs]; rfl) h)

/-- Success analysis of `ProtocolVersion.fromString`: it returns `Ok`
exactly when `split('.')` yields three segments each accepted by Rust's
`u8` parser. -/
theorem fromString_ok_iff (s : String) :
    (∃ v, ProtocolVersion.fromString s = .ok v) ↔
      ((splitOnDot s.data).length = 3 ∧ ∀ p ∈ splitOnDot s.data, validU8Segment p) := by
  by_cases hlen : (splitOnDot s.data).length = 3
  · obtain ⟨a, b, c, habc⟩ := List.length_eq_three.mp hlen
    rw [fromString_eq_of_split s a b c habc]
    constructor
    · rintro ⟨v, h⟩
      rcases h1 : parseRustU8 a with _ | major
      · rw [h1] at h; exact absurd h (by simp)
      rcases h2 : parseRustU8 b with _ | minor
      · rw [h1, h2] at h; exact absurd h (by simp)
      rcases h3 : parseRustU8 c with _ | revision
      · rw [h1, h2, h3] at h; exact absurd h (by simp)
      refine ⟨hlen, ?_⟩
      intro p hp
      rw [habc] at hp
      simp only [List.mem_cons, List.not_mem_nil, or_false] at hp
      rcases hp with rfl | rfl | rfl
      · exact (parseRustU8_some_iff p).mp ⟨major, h1⟩
      · exact (parseRustU8_some_iff p).mp ⟨minor, h2⟩
      · exact (parseRustU8_some_iff p).mp ⟨revision, h3⟩
    · rintro ⟨_, hall⟩
      obtain ⟨major, h1⟩ := (parseRustU8_some_iff a).mpr (hall a (by rw [habc]; simp))
      obtain ⟨minor, h2⟩ := (parseRustU8_some_iff b).mpr (hall b (by rw [habc]; simp))
      obtain ⟨revision, h3⟩ := (parseRustU8_some_iff c).mpr (hall c (by rw [habc]; simp))
      exact ⟨⟨major, minor, revision⟩, by rw [h1, h2, h3]⟩
  · rw [fromString_eq_error_of_split s hlen]
    simp only [reduceCtorEq, exists_false, false_iff, not_and]
    intro h
    exact absurd h hlen

/-- C3 counterexample: the claim says every segment containing a
non-digit character makes the decode fail, but `"+1.0.0"` — whose first
segment contains the non-digit `+` — decodes successfully to
`{1, 0, 0}`, because Rust's `u8::from_str` accepts an optional leading
`+` sign. -/
theorem c3_version_decode_counterexample :
    ProtocolVersion.fromString "+1.0.0" = .ok ⟨1, 0, 0⟩ ∧
    isDigitChar '+' = false ∧ '+' ∈ ("+1".data) := by
  refine ⟨?_, rfl, by decide⟩
  rfl

/-- C3 amended: `ProtocolVersion` decode succeeds exactly when the
string splits on `.` into three segments each of which Rust's `u8`
parser accepts — one or more decimal digits with value at most 255,
optionally preceded by a single `+` sign (the one amendment the
counterexample forces; any other non-digit character still fails) —
never clamping, with the listed examples behaving as claimed. -/
theorem c3_version_decode_amended :
    (∀ s : String, (∃ v, ProtocolVersion.fromString s = .ok v) ↔
        ((splitOnDot s.data).length = 3 ∧ ∀ p ∈ splitOnDot s.data, validU8Segment p)) ∧
    (∃ e, ProtocolVersion.fromString "1.0" = .error e) ∧
    (∃ e, ProtocolVersion.fromString "1.0.0.0" = .error e) ∧
    (∃ e, ProtocolVersion.fromString "1.0.256" = .error e) ∧
    (∃ e, ProtocolVersion.fromString "a.0.0" = .error e) ∧
    ProtocolVersion.fromString "1.0.0" = .ok ⟨1, 0, 0⟩ :=
  ⟨fromString_ok_iff, ⟨_, rfl⟩, ⟨_, rfl⟩, ⟨_, rfl⟩, ⟨_, rfl⟩, rfl⟩

/-- Witness for C3's amended characterization at `"1.0.0"`. -/
theorem c3_version_decode_amended_witness :
    (splitOnDot ("1.0.0").data).length = 3 ∧
      ∀ p ∈ splitOnDot ("1.0.0").data, validU8Segment p :=
  (c3_version_decode_amended.1 "1.0.0").mp ⟨⟨1, 0, 0⟩, rfl⟩

/-- Whether the first list is a prefix of the second. -/
def leadsWith : List Char → List Char → Bool
  | [], _ => true
  | _ :: _, [] => false
  | n :: ns, c :: cs => n == c && leadsWith ns cs

/-- Whether `needle` occurs as a contiguous substring of the first
list. -/
def hasSub : List Char → List Char → Bool
  | [], needle => leadsWith needle []
  | c :: rest, needle => leadsWith needle (c :: rest) || hasSub rest needle

/-- C5: for every inbound text frame that parses as a server message, a
`Print` variant is delivered to the callback exactly as
`(text, Some(printlevel))` and every other variant as the formatted
`Received:` description with classification `None`; on the claim's
concrete print frame the callback receives exactly
`("Hello", Some(High))`, and on its concrete login-failure frame a
description containing `"bad password"` with `None`. -/
theorem c5_reader_dispatch :
    (∀ txt m pl t, parseServerMessage txt = .ok m → m.content = .print pl t →
        handleText txt = [(t, some pl)]) ∧
    (∀ txt m, parseServerMessage txt = .ok m → (∀ pl t, m.content ≠ .print pl t) →
        handleText txt = [("Received: " ++ displayServerMessage m ++ "\n", none)]) ∧
    handleText "\x7b\"type\":\"print\",\"id\":2,\"content\":\x7b\"printlevel\":\"high\",\"text\":\"Hello\"\x7d\x7d" =
      [("Hello", some .high)] ∧
    handleText "\x7b\"type\":\"login_failure\",\"id\":2,\"content\":\"bad password\"\x7d" =
      [("Received: \x7b\n  \"type\": \"login_failure\",\n  \"content\": \"bad password\",\n  \"id\": 2\n\x7d\n", none)] ∧
    hasSub ("Received: \x7b\n  \"type\": \"login_failure\",\n  \"content\": \"bad password\",\n  \"id\": 2\n\x7d\n").data ("bad password").data = true := by
  refine ⟨?_, ?_, ?_, ?_, ?_⟩
  · intro txt m pl t hp hc
    obtain ⟨content, i⟩ := m
    simp only [Message.content] at hc
    subst hc
    simp [handleText, hp]
  · intro txt m hp hnp
    obtain ⟨content, i⟩ := m
    cases content with
    | print pl t => exact absurd rfl (hnp pl t)
    | loginResponse n => simp [handleText, hp]
    | loginFailure s => simp [handleText, hp]
    | loginSuccess => simp [handleText, hp]
    | maplist => simp [handleText, hp]
  · rfl
  · rfl
  · rfl

/-- Witness for C5 at the claim's concrete print frame. -/
theorem c5_reader_dispatch_witness :
    parseServerMessage "\x7b\"type\":\"print\",\"id\":2,\"content\":\x7b\"printlevel\":\"high\",\"text\":\"Hello\"\x7d\x7d" =
      .ok ⟨.print .high "Hello", 2⟩ ∧
    handleText "\x7b\"type\":\"print\",\"id\":2,\"content\":\x7b\"printlevel\":\"high\",\"text\":\"Hello\"\x7d\x7d" =
      [("Hello", some .high)] :=
  ⟨rfl,
   c5_reader_dispatch.1
     "\x7b\"type\":\"print\",\"id\":2,\"content\":\x7b\"printlevel\":\"high\",\"text\":\"Hello\"\x7d\x7d"
     ⟨.print .high "Hello", 2⟩ .high "Hello" rfl rfl⟩

/-!  Claim-side predicates and inversion lemmas for the decode-failure
analysis. -/

/-- First `type` entry of a JSON object when its value is a string. -/
def firstTag : Json → Option String
  | .obj fields =>
    match objFieldList fields "type" with
    | some (.str t) => some t
    | _ => none
  | _ => none

/-- First `content` entry of a JSON object. -/
def firstContent : Json → Option Json
  | .obj fields => objFieldList fields "content"
  | _ => none

/-- The condition "the tag matches no known variant": no first `type`
entry holding a known tag string exists (covering a missing `type`, a
non-string `type` and an unknown tag alike). -/
def noKnownTag (tags : List String) (j : Json) : Prop :=
  ∀ t, firstTag j = some t → t ∉ tags

/-- The condition "the `id` field is absent or not a non-negative
integer", read on the first `id` entry. -/
def badIdField (j : Json) : Prop :=
  ∀ fields, j = .obj fields →
    objFieldList fields "id" = none ∨
    ∃ v, objFieldList fields "id" = some v ∧ ∀ n : Int, 0 ≤ n → v ≠ .num n

/-- Payload shape each server tag requires of the (first) `content`
entry. -/
def serverContentShapeOk : String → Option Json → Prop
  | "login_response", c => ∃ n : Int, 0 ≤ n ∧ n < 2 ^ 64 ∧ c = some (.num n)
  | "login_failure", c => ∃ s, c = some (.str s)
  | "login_success", c => c = none ∨ c = some .null
  | "print", c =>
    ∃ fields, c = some (.obj fields) ∧
      (∃ pl, objFieldList fields "printlevel" = some (.str pl) ∧ printLevelOfName pl ≠ none) ∧
      (∃ s, objFieldList fields "text" = some (.str s))
  | "maplist", c => c = none ∨ c = some .null
  | _, _ => False

/-- Payload shape each client tag requires of the (first) `content`
entry. -/
def clientContentShapeOk : String → Option Json → Prop
  | "login_request", c =>
    ∃ s, c = some (.str s) ∧
      (splitOnDot s.data).length = 3 ∧ ∀ p ∈ splitOnDot s.data, validU8Segment p
  | "login_password", c => ∃ s, c = some (.str s)
  | "command", c => ∃ s, c = some (.str s)
  | "maplist", c => c = none ∨ c = some .null
  | _, _ => False

theorem decodeU64_ok (v : Json) (n : Nat) (h : decodeU64 v = .ok n) :
    ∃ m : Int, v = .num m ∧ 0 ≤ m ∧ m < 2 ^ 64 ∧ n = m.toNat := by
  cases v with
  | num m =>
    simp only [decodeU64] at h
    by_cases hm : 0 ≤ m ∧ m < 2 ^ 64
    · rw [if_pos hm] at h
      injection h with h
      exact ⟨m, rfl, hm.1, hm.2, h.symm⟩
    · rw [if_neg hm] at h
      exact absurd h (by simp)
  | null => exact absurd h (by simp [decodeU64])
  | bool b => exact absurd h (by simp [decodeU64])
  | fnum => exact absurd h (by simp [decodeU64])
  | str s => exact absurd h (by simp [decodeU64])
  | arr xs => exact absurd h (by simp [decodeU64])
  | obj fs => exact absurd h (by simp [decodeU64])

theorem decodeString_ok (v : Json) (s : String) (h : decodeString v = .ok s) :
    v = .str s := by
  cases v <;> simp [decodeString] at h
  rw [h]

theorem decodeUnit_ok (c : Option Json) (u : Unit) (h : decodeUnit c = .ok u) :
    c = none ∨ c = some .null := by
  rcases c with _ | v
  · exact Or.inl rfl
  · cases v <;> simp [decodeUnit] at h
    exact Or.inr rfl

theorem decodePrintLevel_ok (v : Json) (pl : PrintLevel) (h : decodePrintLevel v = .ok pl) :
    ∃ s, v = .str s ∧ printLevelOfName s = some pl := by
  cases v <;> simp only [decodePrintLevel] at h
  case str s =>
    rcases hn : printLevelOfName s with _ | pl'
    · rw [hn] at h; exact absurd h (by simp)
    · rw [hn] at h
      refine ⟨s, rfl, ?_⟩
      rw [hn]
      cases h
      rfl
  all_goals exact absurd h (by simp)

theorem objFieldList_cons_pos (k : String) (v : Json) (rest : List (String × Json))
    (key : String) (h : k = key) : objFieldList ((k, v) :: rest) key = some v := by
  simp only [objFieldList]
  rw [if_pos h]

theorem objFieldList_cons_neg (k : String) (v : Json) (rest : List (String × Json))
    (key : String) (h : k ≠ key) : objFieldList ((k, v) :: rest) key = objFieldList rest key := by
  simp only [objFieldList]
  rw [if_neg h]

theorem decodePrintFields_ok (fields : List (String × Json)) : ∀ pl? t? r,
    decodePrintFields fields pl? t? = .ok r →
    (pl? = none →
      ∃ pl, objFieldList fields "printlevel" = some (.str pl) ∧ printLevelOfName pl ≠ none) ∧
    (t? = none → ∃ s, objFieldList fields "text" = some (.str s)) := by
  induction fields with
  | nil =>
    intro pl? t? r h
    constructor
    · rintro rfl
      cases t? <;> exact absurd h (by simp [decodePrintFields])
    · rintro rfl
      cases pl? with
      | none => exact absurd h (by simp [decodePrintFields])
      | some pl => exact absurd h (by simp [decodePrintFields])
  | cons kv rest ih =>
    obtain ⟨k, v⟩ := kv
    intro pl? t? r h
    simp only [decodePrintFields] at h
    by_cases hk : k = "printlevel"
    · rw [if_pos hk] at h
      cases pl? with
      | some pl => simp at h
      | none =>
        rcases hdl : decodePrintLevel v with e | pl
        · simp [hdl] at h
        · simp only [hdl] at h
          obtain ⟨s, hs, hspl⟩ := decodePrintLevel_ok v pl hdl
          obtain ⟨_, htext⟩ := ih (some pl) t? r h
          constructor
          · intro _
            refine ⟨s, ?_, ?_⟩
            · rw [objFieldList_cons_pos k v rest "printlevel" hk, hs]
            · rw [hspl]; simp
          · intro ht
            rw [objFieldList_cons_neg k v rest "text" (by rw [hk]; decide)]
            exact htext ht
    · rw [if_neg hk] at h
      by_cases hk2 : k = "text"
      · rw [if_pos hk2] at h
        cases t? with
        | some t => simp at h
        | none =>
          cases v with
          | str t =>
            simp only at h
            obtain ⟨hpl, _⟩ := ih pl? (some t) r h
            constructor
            · intro hplnone
              rw [objFieldList_cons_neg k (.str t) rest "printlevel" (by rw [hk2]; decide)]
              exact hpl hplnone
            · intro _
              refine ⟨t, ?_⟩
              rw [objFieldList_cons_pos k (.str t) rest "text" hk2]
          | null => simp at h
          | bool b => simp at h
          | num n => simp at h
          | fnum => simp at h
          | arr xs => simp at h
          | obj fs => simp at h
      · rw [if_neg hk2] at h
        obtain ⟨hpl, htext⟩ := ih pl? t? r h
        constructor
        · intro hplnone
          rw [objFieldList_cons_neg k v rest "printlevel" hk]
          exact hpl hplnone
        · intro ht
          rw [objFieldList_cons_neg k v rest "text" hk2]
          exact htext ht

theorem firstTag_obj (fields : List (String × Json)) (t : String)
    (h : firstTag (.obj fields) = some t) :
    objFieldList fields "type" = some (.str t) := by
  simp only [firstTag] at h
  rcases hty : objFieldList fields "type" with _ | tv
  · rw [hty] at h; exact absurd h (by simp)
  · rw [hty] at h
    cases tv with
    | str t' =>
      cases h
      rfl
    | null => exact absurd h (by simp)
    | bool b => exact absurd h (by simp)
    | num n => exact absurd h (by simp)
    | fnum => exact absurd h (by simp)
    | arr xs => exact absurd h (by simp)
    | obj fs => exact absurd h (by simp)

theorem decodeMessageWith_err_of_noTag {T : Type}
    (dec : String → Option Json → Except String T) (tags : List String) (j : Json)
    (h : noKnownTag tags j) : ∃ e, decodeMessageWith dec tags j = .error e := by
  cases j with
  | obj fields =>
    simp only [decodeMessageWith]
    by_cases h1 : 2 ≤ countKey fields "id"
    · rw [if_pos h1]; exact ⟨_, rfl⟩
    rw [if_neg h1]
    by_cases h2 : 2 ≤ countKey fields "type"
    · rw [if_pos h2]; exact ⟨_, rfl⟩
    rw [if_neg h2]
    by_cases h3 : 2 ≤ countKey fields "content"
    · rw [if_pos h3]; exact ⟨_, rfl⟩
    rw [if_neg h3]
    rcases hid : objFieldList fields "id" with _ | idv
    · simp only [hid]; exact ⟨_, rfl⟩
    simp only [hid]
    rcases hdec : decodeU64 idv with e | idn
    · simp only [hdec]; exact ⟨_, rfl⟩
    simp only [hdec]
    rcases hty : objFieldList fields "type" with _ | tv
    · simp only [hty]; exact ⟨_, rfl⟩
    cases tv with
    | str t =>
      simp only [hty]
      have hft : firstTag (.obj fields) = some t := by simp [firstTag, hty]
      rw [if_neg (h t hft)]
      exact ⟨_, rfl⟩
    | null => simp only [hty]; exact ⟨_, rfl⟩
    | bool b => simp only [hty]; exact ⟨_, rfl⟩
    | num n => simp only [hty]; exact ⟨_, rfl⟩
    | fnum => simp only [hty]; exact ⟨_, rfl⟩
    | arr xs => simp only [hty]; exact ⟨_, rfl⟩
    | obj fs => simp only [hty]; exact ⟨_, rfl⟩
  | null => exact ⟨_, rfl⟩
  | bool b => exact ⟨_, rfl⟩
  | num n => exact ⟨_, rfl⟩
  | fnum => exact ⟨_, rfl⟩
  | str s => exact ⟨_, rfl⟩
  | arr xs => exact ⟨_, rfl⟩

theorem decodeMessageWith_err_of_badId {T : Type}
    (dec : String → Option Json → Except String T) (tags : List String) (j : Json)
    (h : badIdField j) : ∃ e, decodeMessageWith dec tags j = .error e := by
  cases j with
  | obj fields =>
    simp only [decodeMessageWith]
    by_cases h1 : 2 ≤ countKey fields "id"
    · rw [if_pos h1]; exact ⟨_, rfl⟩
    rw [if_neg h1]
    by_cases h2 : 2 ≤ countKey fields "type"
    · rw [if_pos h2]; exact ⟨_, rfl⟩
    rw [if_neg h2]
    by_cases h3 : 2 ≤ countKey fields "content"
    · rw [if_pos h3]; exact ⟨_, rfl⟩
    rw [if_neg h3]
    rcases hid : objFieldList fields "id" with _ | idv
    · simp only [hid]; exact ⟨_, rfl⟩
    simp only [hid]
    rcases hdec : decodeU64 idv with e | idn
    · simp only [hdec]; exact ⟨_, rfl⟩
    obtain ⟨m, hm, h0, _, _⟩ := decodeU64_ok idv idn hdec
    rcases h fields rfl with hnone | ⟨v, hv, hbad⟩
    · rw [hid] at hnone; exact absurd hnone (by simp)
    · rw [hid] at hv
      injection hv with hv
      subst hv
      exact absurd hm (hbad m h0)
  | null => exact ⟨_, rfl⟩
  | bool b => exact ⟨_, rfl⟩
  | num n => exact ⟨_, rfl⟩
  | fnum => exact ⟨_, rfl⟩
  | str s => exact ⟨_, rfl⟩
  | arr xs => exact ⟨_, rfl⟩

theorem decodeMessageWith_err_of_badContent {T : Type}
    (dec : String → Option Json → Except String T) (tags : List String) (j : Json)
    (t : String) (hft : firstTag j = some t)
    (hdecc : ∀ r, dec t (firstContent j) ≠ .ok r) :
    ∃ e, decodeMessageWith dec tags j = .error e := by
  cases j with
  | obj fields =>
    have hty := firstTag_obj fields t hft
    simp only [decodeMessageWith]
    by_cases h1 : 2 ≤ countKey fields "id"
    · rw [if_pos h1]; exact ⟨_, rfl⟩
    rw [if_neg h1]
    by_cases h2 : 2 ≤ countKey fields "type"
    · rw [if_pos h2]; exact ⟨_, rfl⟩
    rw [if_neg h2]
    by_cases h3 : 2 ≤ countKey fields "content"
    · rw [if_pos h3]; exact ⟨_, rfl⟩
    rw [if_neg h3]
    rcases hid : objFieldList fields "id" with _ | idv
    · simp only [hid]; exact ⟨_, rfl⟩
    simp only [hid]
    rcases hdec : decodeU64 idv with e | idn
    · simp only [hdec]; exact ⟨_, rfl⟩
    simp only [hdec, hty]
    by_cases htin : t ∈ tags
    · rw [if_pos htin]
      rcases hd : dec t (objFieldList fields "content") with e | r
      · simp only [hd]; exact ⟨_, rfl⟩
      · exact absurd hd (hdecc r)
    · rw [if_neg htin]; exact ⟨_, rfl⟩
  | null => exact absurd hft (by simp [firstTag])
  | bool b => exact absurd hft (by simp [firstTag])
  | num n => exact absurd hft (by simp [firstTag])
  | fnum => exact absurd hft (by simp [firstTag])
  | str s => exact absurd hft (by simp [firstTag])
  | arr xs => exact absurd hft (by simp [firstTag])

theorem decodeMessageWith_err_of_not_obj {T : Type}
    (dec : String → Option Json → Except String T) (tags : List String) (j : Json)
    (h : ∀ fields, j ≠ .obj fields) : ∃ e, decodeMessageWith dec tags j = .error e := by
  cases j with
  | obj fields => exact absurd rfl (h fields)
  | null => exact ⟨_, rfl⟩
  | bool b => exact ⟨_, rfl⟩
  | num n => exact ⟨_, rfl⟩
  | fnum => exact ⟨_, rfl⟩
  | str s => exact ⟨_, rfl⟩
  | arr xs => exact ⟨_, rfl⟩

theorem decodeServerContent_ok_shape (t : String) (c : Option Json) (r : ServerMessageType)
    (ht : t ∈ serverTags) (h : decodeServerContent t c = .ok r) :
    serverContentShapeOk t c := by
  have ht' : t = "login_response" ∨ t = "login_failure" ∨ t = "login_success" ∨
      t = "print" ∨ t = "maplist" := by simpa [serverTags] using ht
  rcases ht' with rfl | rfl | rfl | rfl | rfl
  · cases c with
    | none => exact absurd h (by simp [decodeServerContent])
    | some v =>
      simp only [decodeServerContent] at h
      rcases hd : decodeU64 v with e | n
      · rw [hd] at h; exact absurd h (by simp [Except.map])
      · obtain ⟨m, hm, h0, h64, _⟩ := decodeU64_ok v n hd
        exact ⟨m, h0, h64, by rw [hm]⟩
  · cases c with
    | none => exact absurd h (by simp [decodeServerContent])
    | some v =>
      simp only [decodeServerContent] at h
      rcases hd : decodeString v with e | str
      · rw [hd] at h; exact absurd h (by simp [Except.map])
      · exact ⟨str, by rw [decodeString_ok v str hd]⟩
  · simp only [decodeServerContent] at h
    rcases hd : decodeUnit c with e | u
    · rw [hd] at h; exact absurd h (by simp [Except.map])
    · exact decodeUnit_ok c u hd
  · cases c with
    | none => exact absurd h (by simp [decodeServerContent])
    | some v =>
      cases v with
      | obj fields =>
        simp only [decodeServerContent] at h
        obtain ⟨hpl, htext⟩ := decodePrintFields_ok fields none none r h
        exact ⟨fields, rfl, hpl rfl, htext rfl⟩
      | null => exact absurd h (by simp [decodeServerContent])
      | bool b => exact absurd h (by simp [decodeServerContent])
      | num n => exact absurd h (by simp [decodeServerContent])
      | fnum => exact absurd h (by simp [decodeServerContent])
      | str s => exact absurd h (by simp [decodeServerContent])
      | arr xs => exact absurd h (by simp [decodeServerContent])
  · simp only [decodeServerContent] at h
    rcases hd : decodeUnit c with e | u
    · rw [hd] at h; exact absurd h (by simp [Except.map])
    · exact decodeUnit_ok c u hd

theorem decodeClientContent_ok_shape (t : String) (c : Option Json) (r : ClientMessageType)
    (ht : t ∈ clientTags) (h : decodeClientContent t c = .ok r) :
    clientContentShapeOk t c := by
  have ht' : t = "login_request" ∨ t = "login_password" ∨ t = "command" ∨
      t = "maplist" := by simpa [clientTags] using ht
  rcases ht' with rfl | rfl | rfl | rfl
  · cases c with
    | none => exact absurd h (by simp [decodeClientContent])
    | some v =>
      simp only [decodeClientContent] at h
      rcases hs : decodeString v with e | str
      · rw [hs] at h; exact absurd h (by simp)
      · simp only [hs] at h
        rcases hf : ProtocolVersion.fromString str with e | ver
        · rw [hf] at h; exact absurd h (by simp [Except.map])
        · obtain ⟨hlen, hsegs⟩ := (fromString_ok_iff str).mp ⟨ver, hf⟩
          exact ⟨str, by rw [decodeString_ok v str hs], hlen, hsegs⟩
  · cases c with
    | none => exact absurd h (by simp [decodeClientContent])
    | some v =>
      simp only [decodeClientContent] at h
      rcases hs : decodeString v with e | str
      · rw [hs] at h; exact absurd h (by simp [Except.map])
      · exact ⟨str, by rw [decodeString_ok v str hs]⟩
  · cases c with
    | none => exact absurd h (by simp [decodeClientContent])
    | some v =>
      simp only [decodeClientContent] at h
      rcases hs : decodeString v with e | str
      · rw [hs] at h; exact absurd h (by simp [Except.map])
      · exact ⟨str, by rw [decodeString_ok v str hs]⟩
  · simp only [decodeClientContent] at h
    rcases hd : decodeUnit c with e | u
    · rw [hd] at h; exact absurd h (by simp [Except.map])
    · exact decodeUnit_ok c u hd

/-- C2: `parse` rejects the whole envelope with a decode error — the
`Except` result admits no partially-valid message — whenever the text
is not valid JSON, or the parsed JSON has no known tag (covering a
missing, non-string or unknown `type`), or the `id` field is absent or
not a non-negative integer, or the payload does not match the shape the
matched tag requires.  Stated for both message directions of
`Message::from_str`. -/
theorem c2_parse_rejects_invalid (s : String) :
    ((∃ e, jsonParse s = .error e) →
      (∃ e, parseServerMessage s = .error e) ∧ (∃ e, parseClientMessage s = .error e)) ∧
    (∀ j, jsonParse s = .ok j →
      (((∀ fields, j ≠ .obj fields) →
          (∃ e, parseServerMessage s = .error e) ∧ (∃ e, parseClientMessage s = .error e)) ∧
       (noKnownTag serverTags j → ∃ e, parseServerMessage s = .error e) ∧
       (noKnownTag clientTags j → ∃ e, parseClientMessage s = .error e) ∧
       (badIdField j →
          (∃ e, parseServerMessage s = .error e) ∧ (∃ e, parseClientMessage s = .error e)) ∧
       (∀ t, firstTag j = some t → t ∈ serverTags →
          ¬ serverContentShapeOk t (firstContent j) → ∃ e, parseServerMessage s = .error e) ∧
       (∀ t, firstTag j = some t → t ∈ clientTags →
          ¬ clientContentShapeOk t (firstContent j) → ∃ e, parseClientMessage s = .error e))) := by
  have hps : ∀ j, jsonParse s = .ok j → parseServerMessage s = decodeServerMessage j := by
    intro j hj
    simp [parseServerMessage, hj]
  have hpc : ∀ j, jsonParse s = .ok j → parseClientMessage s = decodeClientMessage j := by
    intro j hj
    simp [parseClientMessage, hj]
  constructor
  · rintro ⟨e, he⟩
    exact ⟨⟨e, by simp [parseServerMessage, he]⟩, ⟨e, by simp [parseClientMessage, he]⟩⟩
  · intro j hj
    refine ⟨?_, ?_, ?_, ?_, ?_, ?_⟩
    · intro hobj
      exact ⟨by rw [hps j hj]; exact decodeMessageWith_err_of_not_obj _ _ j hobj,
             by rw [hpc j hj]; exact decodeMessageWith_err_of_not_obj _ _ j hobj⟩
    · intro hnt
      rw [hps j hj]
      exact decodeMessageWith_err_of_noTag _ _ j hnt
    · intro hnt
      rw [hpc j hj]
      exact decodeMessageWith_err_of_noTag _ _ j hnt
    · intro hbad
      exact ⟨by rw [hps j hj]; exact decodeMessageWith_err_of_badId _ _ j hbad,
             by rw [hpc j hj]; exact decodeMessageWith_err_of_badId _ _ j hbad⟩
    · intro t hft htin hshape
      rw [hps j hj]
      exact decodeMessageWith_err_of_badContent _ _ j t hft
        (fun r hr => hshape (decodeServerContent_ok_shape t (firstContent j) r htin hr))
    · intro t hft htin hshape
      rw [hpc j hj]
      exact decodeMessageWith_err_of_badContent _ _ j t hft
        (fun r hr => hshape (decodeClientContent_ok_shape t (firstContent j) r htin hr))

/-- Witness for C2 at the empty JSON object, which has no tag and no
id. -/
theorem c2_parse_rejects_invalid_witness :
    jsonParse "\x7b\x7d" = .ok (.obj []) ∧
    (∃ e, parseServerMessage "\x7b\x7d" = .error e) :=
  ⟨rfl,
   ((c2_parse_rejects_invalid "\x7b\x7d").2 (.obj []) rfl).2.1
     (fun t h => by simp [firstTag, objFieldList] at h)⟩

/-!  Decimal-printing foundation for the roundtrip proofs. -/

theorem digitChar_toNat (m : Nat) (h : m < 10) : (digitChar m).toNat = 48 + m := by
  interval_cases m <;> decide

theorem digitChar_isDigit (m : Nat) (h : m < 10) : isDigitChar (digitChar m) = true := by
  interval_cases m <;> decide

theorem natCharsAux_fuel_eq : ∀ f n, n < f → ∀ g, n < g → natCharsAux f n = natCharsAux g n := by
  intro f
  induction f with
  | zero => intro n h; omega
  | succ f ih =>
    intro n hf g hg
    cases g with
    | zero => omega
    | succ g =>
      simp only [natCharsAux]
      by_cases h10 : n < 10
      · rw [if_pos h10, if_pos h10]
      · rw [if_neg h10, if_neg h10]
        have hdiv : n / 10 < n := Nat.div_lt_self (by omega) (by omega)
        rw [ih (n / 10) (by omega) g (by omega)]

theorem natChars_eq (n : Nat) :
    natChars n = if n < 10 then [digitChar n] else natChars (n / 10) ++ [digitChar (n % 10)] := by
  show natCharsAux (n + 1) n = _
  simp only [natCharsAux]
  by_cases h10 : n < 10
  · rw [if_pos h10, if_pos h10]
  · rw [if_neg h10, if_neg h10]
    show natCharsAux n (n / 10) ++ _ = natCharsAux (n / 10 + 1) (n / 10) ++ _
    rw [natCharsAux_fuel_eq n (n / 10) (by omega) (n / 10 + 1) (by omega)]

theorem natChars_all_digits : ∀ n, ∀ c ∈ natChars n, isDigitChar c = true := by
  intro n
  induction n using Nat.strong_induction_on with
  | _ n ih =>
    rw [natChars_eq]
    by_cases h10 : n < 10
    · rw [if_pos h10]
      intro c hc
      rw [List.mem_singleton] at hc
      subst hc
      exact digitChar_isDigit n h10
    · rw [if_neg h10]
      intro c hc
      rcases List.mem_append.mp hc with hc | hc
      · exact ih (n / 10) (Nat.div_lt_self (by omega) (by omega)) c hc
      · rw [List.mem_singleton] at hc
        subst hc
        exact digitChar_isDigit (n % 10) (Nat.mod_lt n (by omega))

theorem natChars_ne_nil (n : Nat) : natChars n ≠ [] := by
  rw [natChars_eq]
  by_cases h10 : n < 10
  · rw [if_pos h10]; simp
  · rw [if_neg h10]; simp

theorem charsVal_natChars : ∀ n, charsVal (natChars n) = n := by
  intro n
  induction n using Nat.strong_induction_on with
  | _ n ih =>
    rw [natChars_eq]
    by_cases h10 : n < 10
    · rw [if_pos h10]
      show accDigit 0 (digitChar n) = n
      unfold accDigit
      rw [digitChar_toNat n h10]
      omega
    · rw [if_neg h10]
      unfold charsVal
      rw [List.foldl_append]
      show accDigit (charsVal (natChars (n / 10))) (digitChar (n % 10)) = n
      rw [ih (n / 10) (Nat.div_lt_self (by omega) (by omega))]
      unfold accDigit
      rw [digitChar_toNat (n % 10) (Nat.mod_lt n (by omega))]
      omega

theorem natChars_pos_head : ∀ n, 0 < n →
    ∃ c cs, natChars n = c :: cs ∧ c ≠ '0' ∧ isDigitChar c = true := by
  intro n
  induction n using Nat.strong_induction_on with
  | _ n ih =>
    intro h
    rw [natChars_eq]
    by_cases h10 : n < 10
    · rw [if_pos h10]
      refine ⟨digitChar n, [], rfl, ?_, digitChar_isDigit n h10⟩
      interval_cases n <;> decide
    · rw [if_neg h10]
      obtain ⟨c, cs, hcons, hne, hdig⟩ :=
        ih (n / 10) (Nat.div_lt_self (by omega) (by omega)) (by omega)
      exact ⟨c, cs ++ [digitChar (n % 10)], by rw [hcons]; rfl, hne, hdig⟩

theorem digit_ne_dot (c : Char) (h : isDigitChar c = true) : c ≠ '.' :=
  fun hh => absurd (hh ▸ h) (by decide)

theorem splitOnDot_no_dot (l : List Char) (h : ∀ c ∈ l, c ≠ '.') : splitOnDot l = [l] := by
  induction l with
  | nil => rfl
  | cons c t ih =>
    simp only [splitOnDot]
    rw [if_neg (h c (List.mem_cons_self c t))]
    simp only [ih (fun c' hc' => h c' (List.mem_cons_of_mem c hc'))]

theorem splitOnDot_append (l ys : List Char) (h : ∀ c ∈ l, c ≠ '.') :
    splitOnDot (l ++ '.' :: ys) = l :: splitOnDot ys := by
  induction l with
  | nil =>
    show splitOnDot ('.' :: ys) = [] :: splitOnDot ys
    simp only [splitOnDot]
    rw [if_pos trivial]
  | cons c t ih =>
    show splitOnDot (c :: (t ++ '.' :: ys)) = (c :: t) :: splitOnDot ys
    simp only [splitOnDot]
    rw [if_neg (h c (List.mem_cons_self c t))]
    simp only [ih (fun c' hc' => h c' (List.mem_cons_of_mem c hc'))]

theorem parseRustU8_natChars (n : Nat) (h : n ≤ 255) : parseRustU8 (natChars n) = some n := by
  obtain ⟨c, cs, hcons⟩ : ∃ c cs, natChars n = c :: cs := by
    rcases hnc : natChars n with _ | ⟨c, cs⟩
    · exact absurd hnc (natChars_ne_nil n)
    · exact ⟨c, cs, rfl⟩
  have hdig := natChars_all_digits n
  have hplus : c ≠ '+' := by
    intro hc
    have hcd := hdig c (by rw [hcons]; exact List.mem_cons_self c cs)
    rw [hc] at hcd
    exact absurd hcd (by decide)
  have hval : (natChars n).foldl accDigit 0 = n := charsVal_natChars n
  rw [hcons, parseRustU8_eq_digits c cs hplus, ← hcons,
      parseU8Digits_complete (natChars n) 0 hdig (by rw [hval]; exact h), hval]

/-- The custom deserializer inverts the custom serializer on every
in-range `ProtocolVersion`. -/
theorem fromString_toWire (v : ProtocolVersion) (h1 : v.major ≤ 255) (h2 : v.minor ≤ 255)
    (h3 : v.revision ≤ 255) : ProtocolVersion.fromString v.toWire = .ok v := by
  have hnd : ∀ n : Nat, ∀ c ∈ natChars n, c ≠ '.' :=
    fun n c hc => digit_ne_dot c (natChars_all_digits n c hc)
  have hsplit : splitOnDot (v.toWire).data =
      [natChars v.major, natChars v.minor, natChars v.revision] := by
    have hdata : (v.toWire).data =
        natChars v.major ++ '.' :: natChars v.minor ++ '.' :: natChars v.revision := rfl
    rw [hdata,
      show (natChars v.major ++ '.' :: natChars v.minor ++ '.' :: natChars v.revision
          : List Char) =
        natChars v.major ++ '.' :: (natChars v.minor ++ '.' :: natChars v.revision) by
        simp [List.cons_append, List.append_assoc]]
    rw [splitOnDot_append _ _ (hnd v.major), splitOnDot_append _ _ (hnd v.minor),
        splitOnDot_no_dot _ (hnd v.revision)]
  rw [fromString_eq_of_split _ _ _ _ hsplit]
  simp only [parseRustU8_natChars v.major h1, parseRustU8_natChars v.minor h2,
    parseRustU8_natChars v.revision h3]

/-!  String-escape roundtrip. -/

theorem hexVal?_hexChar (k : Nat) (h : k < 16) : hexVal? (hexChar k) = some k := by
  interval_cases k <;> decide

theorem hex4_eq (a b c d : Char) (va vb vc vd : Nat) (ha : hexVal? a = some va)
    (hb : hexVal? b = some vb) (hc : hexVal? c = some vc) (hd : hexVal? d = some vd) :
    hex4 a b c d = some (((va * 16 + vb) * 16 + vc) * 16 + vd) := by
  simp only [hex4, ha, hb, hc, hd, Option.bind, Option.map]

theorem parseStringBody_backslash (x : List Char) :
    parseStringBody ('\\' :: x) = parseEscape x := rfl

theorem parseEscape_short (e decoded : Char) (tail : List Char)
    (h : shortEscape? e = some decoded) :
    parseEscape (e :: tail) = (parseStringBody tail).map fun p => (decoded :: p.1, p.2) := by
  simp only [parseEscape, h]

theorem parseEscape_u (x : List Char) : parseEscape ('u' :: x) = parseHexEscape x := rfl

theorem parseHexEscape_low (a b c d : Char) (v : Nat) (tail : List Char)
    (h : hex4 a b c d = some v) (hlt : v < 55296) :
    parseHexEscape (a :: b :: c :: d :: tail) =
      (parseStringBody tail).map fun p => (Char.ofNat v :: p.1, p.2) := by
  simp only [parseHexEscape, h]
  rw [if_neg (by omega), if_neg (by omega)]

theorem parseStringBody_plain (c : Char) (tail : List Char)
    (h1 : c ≠ '"') (h2 : c ≠ '\\') (h3 : ¬ c.toNat < 32) :
    parseStringBody (c :: tail) = (parseStringBody tail).map fun p => (c :: p.1, p.2) := by
  simp only [parseStringBody]
  rw [if_neg h1, if_neg h2, if_neg h3]

/-- The string-body parser inverts serde_json's escaping for every
character list, consuming the closing quote. -/
theorem parseStringBody_escaped (l : List Char) : ∀ rest,
    parseStringBody (l.flatMap escapeChar ++ '"' :: rest) = .ok (l, rest) := by
  induction l with
  | nil => intro rest; rfl
  | cons c t ih =>
    intro rest
    have hflat : (c :: t).flatMap escapeChar ++ '"' :: rest =
        escapeChar c ++ (t.flatMap escapeChar ++ '"' :: rest) := by
      rw [List.flatMap_cons, List.append_assoc]
    rw [hflat]
    have IH := ih rest
    by_cases h1 : c = '"'
    · have hesc : escapeChar c = ['\\', '"'] := by unfold escapeChar; rw [if_pos h1]
      rw [hesc]
      simp only [List.cons_append, List.nil_append]
      rw [parseStringBody_backslash, parseEscape_short '"' '"' _ rfl, IH]
      subst h1
      rfl
    by_cases h2 : c = '\\'
    · have hesc : escapeChar c = ['\\', '\\'] := by
        unfold escapeChar; rw [if_neg h1, if_pos h2]
      rw [hesc]
      simp only [List.cons_append, List.nil_append]
      rw [parseStringBody_backslash, parseEscape_short '\\' '\\' _ rfl, IH]
      subst h2
      rfl
    by_cases h3 : c.toNat = 8
    · have hesc : escapeChar c = ['\\', 'b'] := by
        unfold escapeChar; rw [if_neg h1, if_neg h2, if_pos h3]
      rw [hesc]
      simp only [List.cons_append, List.nil_append]
      rw [parseStringBody_backslash, parseEscape_short 'b' (Char.ofNat 8) _ rfl, IH]
      simp only [Except.map]
      rw [show Char.ofNat 8 = c by rw [← h3, Char.ofNat_toNat]]
    by_cases h4 : c.toNat = 9
    · have hesc : escapeChar c = ['\\', 't'] := by
        unfold escapeChar; rw [if_neg h1, if_neg h2, if_neg h3, if_pos h4]
      rw [hesc]
      simp only [List.cons_append, List.nil_append]
      rw [parseStringBody_backslash, parseEscape_short 't' '\t' _ rfl, IH]
      simp only [Except.map]
      rw [show '\t' = c by
        rw [show ('\t' : Char) = Char.ofNat 9 from rfl, ← h4, Char.ofNat_toNat]]
    by_cases h5 : c.toNat = 10
    · have hesc : escapeChar c = ['\\', 'n'] := by
        unfold escapeChar; rw [if_neg h1, if_neg h2, if_neg h3, if_neg h4, if_pos h5]
      rw [hesc]
      simp only [List.cons_append, List.nil_append]
      rw [parseStringBody_backslash, parseEscape_short 'n' '\n' _ rfl, IH]
      simp only [Except.map]
      rw [show '\n' = c by
        rw [show ('\n' : Char) = Char.ofNat 10 from rfl, ← h5, Char.ofNat_toNat]]
    by_cases h6 : c.toNat = 12
    · have hesc : escapeChar c = ['\\', 'f'] := by
        unfold escapeChar; rw [if_neg h1, if_neg h2, if_neg h3, if_neg h4, if_neg h5, if_pos h6]
      rw [hesc]
      simp only [List.cons_append, List.nil_append]
      rw [parseStringBody_backslash, parseEscape_short 'f' (Char.ofNat 12) _ rfl, IH]
      simp only [Except.map]
      rw [show Char.ofNat 12 = c by rw [← h6, Char.ofNat_toNat]]
    by_cases h7 : c.toNat = 13
    · have hesc : escapeChar c = ['\\', 'r'] := by
        unfold escapeChar
        rw [if_neg h1, if_neg h2, if_neg h3, if_neg h4, if_neg h5, if_neg h6, if_pos h7]
      rw [hesc]
      simp only [List.cons_append, List.nil_append]
      rw [parseStringBody_backslash, parseEscape_short 'r' (Char.ofNat 13) _ rfl, IH]
      simp only [Except.map]
      rw [show Char.ofNat 13 = c by rw [← h7, Char.ofNat_toNat]]
    by_cases h8 : c.toNat < 32
    · have hesc : escapeChar c =
          ['\\', 'u', '0', '0', hexChar (c.toNat / 16), hexChar (c.toNat % 16)] := by
        unfold escapeChar
        rw [if_neg h1, if_neg h2, if_neg h3, if_neg h4, if_neg h5, if_neg h6, if_neg h7,
          if_pos h8]
      rw [hesc]
      simp only [List.cons_append, List.nil_append]
      rw [parseStringBody_backslash, parseEscape_u]
      have hhex4 : hex4 '0' '0' (hexChar (c.toNat / 16)) (hexChar (c.toNat % 16)) =
          some c.toNat := by
        rw [hex4_eq '0' '0' (hexChar (c.toNat / 16)) (hexChar (c.toNat % 16)) 0 0
          (c.toNat / 16) (c.toNat % 16) rfl rfl (hexVal?_hexChar _ (by omega))
          (hexVal?_hexChar _ (by omega))]
        congr 1
        omega
      rw [parseHexEscape_low _ _ _ _ c.toNat _ hhex4 (by omega), IH]
      simp only [Except.map]
      rw [Char.ofNat_toNat]
    · have hesc : escapeChar c = [c] := by
        unfold escapeChar
        rw [if_neg h1, if_neg h2, if_neg h3, if_neg h4, if_neg h5, if_neg h6, if_neg h7,
          if_neg h8]
      rw [hesc]
      simp only [List.cons_append, List.nil_append]
      rw [parseStringBody_plain c _ h1 h2 h8, IH]
      rfl

/-!  Number roundtrip and the per-value parse property. -/

theorem ws_false_of_digit (c : Char) (h : isDigitChar c = true) : isWsChar c = false := by
  cases hw : isWsChar c
  · rfl
  · exfalso
    have hor : ((c = ' ' ∨ c = '\t') ∨ c = '\n') ∨ c = '\x0d' := by
      simpa [isWsChar] using hw
    rcases hor with ((rfl | rfl) | rfl) | rfl <;> exact absurd h (by decide)

theorem skipWs_cons (c : Char) (l : List Char) (h : isWsChar c = false) :
    skipWs (c :: l) = c :: l := by
  simp only [skipWs, h]
  simp

theorem parseValue_digit (fuel : Nat) (c : Char) (l : List Char) (h : isDigitChar c = true) :
    parseValue (fuel + 1) (c :: l) = parseNumber (c :: l) := by
  have hws : skipWs (c :: l) = c :: l := skipWs_cons c l (ws_false_of_digit c h)
  have h1 : c ≠ 'n' := fun hh => absurd (hh ▸ h) (by decide)
  have h2 : c ≠ 't' := fun hh => absurd (hh ▸ h) (by decide)
  have h3 : c ≠ 'f' := fun hh => absurd (hh ▸ h) (by decide)
  have h4 : c ≠ '"' := fun hh => absurd (hh ▸ h) (by decide)
  have h5 : c ≠ '{' := fun hh => absurd (hh ▸ h) (by decide)
  have h6 : c ≠ '[' := fun hh => absurd (hh ▸ h) (by decide)
  simp only [parseValue, hws]
  rw [if_neg h1, if_neg h2, if_neg h3, if_neg h4, if_neg h5, if_neg h6, if_pos (Or.inr h)]

theorem parseDigitsAcc_run (l : List Char) : ∀ acc rest,
    (∀ c ∈ l, isDigitChar c = true) → headIsDigit rest = false →
    parseDigitsAcc (l ++ rest) acc = (l.foldl accDigit acc, rest) := by
  induction l with
  | nil =>
    intro acc rest _ hrest
    cases rest with
    | nil => rfl
    | cons c r =>
      have hc : isDigitChar c = false := hrest
      simp only [List.nil_append, parseDigitsAcc]
      rw [if_neg (by simp [hc])]
      rfl
  | cons c t ih =>
    intro acc rest hdig hrest
    simp only [List.cons_append, parseDigitsAcc]
    rw [if_pos (hdig c (List.mem_cons_self c t))]
    exact ih (acc * 10 + (c.toNat - 48)) rest (fun c' h => hdig c' (List.mem_cons_of_mem c h))
      hrest

theorem parseNumCore_natChars (n : Nat) (h64 : n < 2 ^ 64) (rest : List Char)
    (hd : headIsDigit rest = false) (ht : parseNumTail rest = .ok (false, rest)) :
    parseNumCore (natChars n ++ rest) false = .ok (.num (n : Int), rest) := by
  by_cases h0 : n = 0
  · subst h0
    rw [show natChars 0 = ['0'] from rfl]
    simp only [List.cons_append, List.nil_append, parseNumCore]
    rw [if_pos trivial, if_neg (by simp [hd]), ht]
    rfl
  · obtain ⟨c, cs, hcons, hne0, hdigc⟩ := natChars_pos_head n (by omega)
    have hdigcs : ∀ c' ∈ cs, isDigitChar c' = true := by
      intro c' hc'
      exact natChars_all_digits n c' (by rw [hcons]; exact List.mem_cons_of_mem c hc')
    have hval : cs.foldl accDigit (c.toNat - 48) = n := by
      have h1 := charsVal_natChars n
      rw [hcons] at h1
      unfold charsVal at h1
      simp only [List.foldl_cons] at h1
      rw [show accDigit 0 c = c.toNat - 48 by unfold accDigit; omega] at h1
      exact h1
    rw [hcons]
    simp only [List.cons_append, parseNumCore]
    rw [if_neg hne0, if_pos hdigc]
    simp only [parseDigitsAcc_run cs (c.toNat - 48) rest hdigcs hd, ht, hval]
    simp only [Except.map]
    rw [show classifyNumber false n false = .num (n : Int) by
      unfold classifyNumber
      rw [if_neg (by simp), if_neg (by simp), if_pos h64]]

theorem parseNumber_natChars (n : Nat) (h64 : n < 2 ^ 64) (rest : List Char)
    (hd : headIsDigit rest = false) (ht : parseNumTail rest = .ok (false, rest)) :
    parseNumber (natChars n ++ rest) = .ok (.num (n : Int), rest) := by
  rcases hnc : natChars n with _ | ⟨c, cs⟩
  · exact absurd hnc (natChars_ne_nil n)
  · have hdigc : isDigitChar c = true :=
      natChars_all_digits n c (by rw [hnc]; exact List.mem_cons_self c cs)
    have hminus : c ≠ '-' := fun hh => absurd (hh ▸ hdigc) (by decide)
    simp only [List.cons_append, parseNumber]
    rw [if_neg hminus, ← List.cons_append, ← hnc]
    exact parseNumCore_natChars n h64 rest hd ht

/-- A value's printed compact form parses back, at any fuel at least
`cost`, whenever what follows cannot extend a number literal. -/
def ValueOk (v : Json) (cost : Nat) : Prop :=
  ∀ fuel rest, headIsDigit rest = false → parseNumTail rest = .ok (false, rest) →
    parseValue (fuel + cost) (jsonChars v ++ rest) = .ok (v, rest)

theorem ValueOk.mono {v : Json} {c c' : Nat} (h : ValueOk v c) (hle : c ≤ c') :
    ValueOk v c' := by
  intro fuel rest h1 h2
  have hinst := h (fuel + (c' - c)) rest h1 h2
  rw [show fuel + (c' - c) + c = fuel + c' by omega] at hinst
  exact hinst

theorem valueOk_str (s : String) : ValueOk (.str s) 1 := by
  intro fuel rest h1 h2
  have hchars : jsonChars (.str s) ++ rest =
      '"' :: (s.data.flatMap escapeChar ++ '"' :: rest) := by
    calc jsonChars (.str s) ++ rest
        = ('"' :: s.data.flatMap escapeChar) ++ ['"'] ++ rest := rfl
      _ = '"' :: (s.data.flatMap escapeChar ++ '"' :: rest) := by
          simp [List.append_assoc]
  rw [hchars,
    show parseValue (fuel + 1) ('"' :: (s.data.flatMap escapeChar ++ '"' :: rest)) =
      (parseStringBody (s.data.flatMap escapeChar ++ '"' :: rest)).map
        (fun p => (Json.str (String.mk p.1), p.2)) from rfl,
    parseStringBody_escaped s.data rest]
  rfl

theorem valueOk_num (n : Nat) (h64 : n < 2 ^ 64) : ValueOk (.num (n : Int)) 1 := by
  intro fuel rest h1 h2
  have hchars : jsonChars (.num (n : Int)) = natChars n := by
    rw [show jsonChars (.num (n : Int)) = intChars (n : Int) from rfl]
    unfold intChars
    rw [if_neg (by omega), show ((n : Int)).natAbs = n from by simp]
  rw [hchars]
  rcases hnc : natChars n with _ | ⟨c, cs⟩
  · exact absurd hnc (natChars_ne_nil n)
  · have hdigc : isDigitChar c = true :=
      natChars_all_digits n c (by rw [hnc]; exact List.mem_cons_self c cs)
    rw [List.cons_append, parseValue_digit fuel c (cs ++ rest) hdigc,
      ← List.cons_append, ← hnc]
    exact parseNumber_natChars n h64 rest h1 h2

/-!  Parsing printed objects. -/

theorem skipWs_quote (l : List Char) : skipWs ('"' :: l) = '"' :: l := rfl

theorem skipWs_colon (l : List Char) : skipWs (':' :: l) = ':' :: l := rfl

theorem skipWs_comma (l : List Char) : skipWs (',' :: l) = ',' :: l := rfl

theorem skipWs_rbrace (l : List Char) : skipWs ('}' :: l) = '}' :: l := rfl

theorem headIsDigit_comma (r : List Char) : headIsDigit (',' :: r) = false := rfl

theorem headIsDigit_rbrace (r : List Char) : headIsDigit ('}' :: r) = false := rfl

theorem parseNumTail_comma (r : List Char) :
    parseNumTail (',' :: r) = .ok (false, ',' :: r) := rfl

theorem parseNumTail_rbrace (r : List Char) :
    parseNumTail ('}' :: r) = .ok (false, '}' :: r) := rfl

theorem parseValue_lbrace (fuel : Nat) (l : List Char) :
    parseValue (fuel + 1) ('{' :: l) =
      match skipWs l with
      | [] => .error "eof while parsing an object"
      | c2 :: r2 =>
        if c2 = '}' then .ok (.obj [], r2)
        else (parseMembers fuel (c2 :: r2)).map fun p => (.obj p.1, p.2) := rfl

theorem parseMembers_quote (fuel : Nat) (l : List Char) :
    parseMembers (fuel + 1) ('"' :: l) =
      match parseStringBody l with
      | .error e => .error e
      | .ok (key, r1) =>
        match skipWs r1 with
        | [] => .error "expected a colon"
        | c2 :: r2 =>
          if c2 = ':' then
            match parseValue fuel r2 with
            | .error e => .error e
            | .ok (v, r3) =>
              match skipWs r3 with
              | [] => .error "expected a comma or a closing brace"
              | c3 :: r4 =>
                if c3 = ',' then
                  (parseMembers fuel r4).map fun p => ((String.mk key, v) :: p.1, p.2)
                else if c3 = '}' then .ok ([(String.mk key, v)], r4)
                else .error "expected a comma or a closing brace"
          else .error "expected a colon" := rfl

theorem membersChars_cons_eq (k : String) (v : Json) (tl : List (String × Json)) :
    ∃ t, membersChars ((k, v) :: tl) = '"' :: t := by
  cases tl with
  | nil => exact ⟨_, rfl⟩
  | cons m tlr => exact ⟨_, rfl⟩

theorem parseMembers_ok (c : Nat) (fields : List (String × Json)) : ∀ (fuel : Nat)
    (rest : List Char), fields ≠ [] → (∀ kv ∈ fields, ValueOk kv.2 c) →
    parseMembers (fuel + c + fields.length) (membersChars fields ++ '}' :: rest) =
      .ok (fields, rest) := by
  induction fields with
  | nil => intro fuel rest h _; exact absurd rfl h
  | cons kv tl ih =>
    obtain ⟨k, v⟩ := kv
    intro fuel rest _ hvals
    have hv : ValueOk v c := hvals (k, v) (List.mem_cons_self _ _)
    cases tl with
    | nil =>
      have hinput : membersChars [(k, v)] ++ '}' :: rest =
          '"' :: (k.data.flatMap escapeChar ++
            '"' :: ':' :: (jsonChars v ++ '}' :: rest)) := by
        calc membersChars [(k, v)] ++ '}' :: rest
            = (('"' :: k.data.flatMap escapeChar) ++ ['"']) ++
                ':' :: jsonChars v ++ '}' :: rest := rfl
          _ = '"' :: (k.data.flatMap escapeChar ++
                '"' :: ':' :: (jsonChars v ++ '}' :: rest)) := by
              simp [List.append_assoc]
      rw [hinput, show fuel + c + List.length [(k, v)] = (fuel + c) + 1 by simp,
        parseMembers_quote]
      have hstr := parseStringBody_escaped k.data (':' :: (jsonChars v ++ '}' :: rest))
      simp only [hstr, skipWs_colon]
      rw [if_pos trivial]
      have hval := hv fuel ('}' :: rest) (headIsDigit_rbrace rest) (parseNumTail_rbrace rest)
      simp only [hval, skipWs_rbrace]
      rw [if_neg (show ¬('}' = ',') by decide), if_pos trivial]
    | cons m tlr =>
      have hinput : membersChars ((k, v) :: m :: tlr) ++ '}' :: rest =
          '"' :: (k.data.flatMap escapeChar ++
            '"' :: ':' :: (jsonChars v ++
              ',' :: (membersChars (m :: tlr) ++ '}' :: rest))) := by
        calc membersChars ((k, v) :: m :: tlr) ++ '}' :: rest
            = ((('"' :: k.data.flatMap escapeChar) ++ ['"']) ++ ':' :: jsonChars v ++
                ',' :: membersChars (m :: tlr)) ++ '}' :: rest := rfl
          _ = '"' :: (k.data.flatMap escapeChar ++
                '"' :: ':' :: (jsonChars v ++
                  ',' :: (membersChars (m :: tlr) ++ '}' :: rest))) := by
              simp [List.append_assoc]
      rw [hinput,
        show fuel + c + List.length ((k, v) :: m :: tlr) =
          ((fuel + (m :: tlr).length) + c) + 1 by simp [List.length_cons]; omega,
        parseMembers_quote]
      have hstr := parseStringBody_escaped k.data
        (':' :: (jsonChars v ++ ',' :: (membersChars (m :: tlr) ++ '}' :: rest)))
      simp only [hstr, skipWs_colon]
      rw [if_pos trivial]
      have hval := hv (fuel + (m :: tlr).length)
        (',' :: (membersChars (m :: tlr) ++ '}' :: rest))
        (headIsDigit_comma _) (parseNumTail_comma _)
      simp only [hval, skipWs_comma]
      rw [if_pos trivial]
      have hrec := ih fuel rest (by simp) (fun kv h => hvals kv (List.mem_cons_of_mem _ h))
      rw [show fuel + c + (m :: tlr).length = fuel + (m :: tlr).length + c by omega] at hrec
      rw [hrec]
      rfl

theorem valueOk_obj (c : Nat) (fields : List (String × Json))
    (hvals : ∀ kv ∈ fields, ValueOk kv.2 c) :
    ValueOk (.obj fields) (c + fields.length + 1) := by
  intro fuel rest h1 h2
  have hchars : jsonChars (.obj fields) ++ rest =
      '{' :: (membersChars fields ++ '}' :: rest) := by
    calc jsonChars (.obj fields) ++ rest
        = ('{' :: membersChars fields) ++ ['}'] ++ rest := rfl
      _ = '{' :: (membersChars fields ++ '}' :: rest) := by simp [List.append_assoc]
  rw [hchars, show fuel + (c + fields.length + 1) = (fuel + c + fields.length) + 1 by omega,
    parseValue_lbrace]
  cases fields with
  | nil => rfl
  | cons kv tl =>
    obtain ⟨k, v⟩ := kv
    obtain ⟨t, ht⟩ := membersChars_cons_eq k v tl
    simp only [ht, List.cons_append, skipWs_quote]
    rw [if_neg (by decide), ← List.cons_append, ← ht,
      parseMembers_ok c ((k, v) :: tl) fuel rest (by simp) hvals]
    rfl

theorem jsonParse_of_valueOk (v : Json) (cost : Nat) (hok : ValueOk v cost)
    (hle : cost ≤ (jsonChars v).length + 1) :
    jsonParse (jsonToString v) = .ok v := by
  have hdata : (jsonToString v).data = jsonChars v := rfl
  unfold jsonParse
  rw [hdata]
  have hv := hok ((jsonChars v).length + 1 - cost) [] rfl rfl
  rw [List.append_nil] at hv
  rw [show (jsonChars v).length + 1 = ((jsonChars v).length + 1 - cost) + cost by omega]
  simp only [hv]
  rfl

/-!  Decoding an encoded envelope on the JSON AST. -/

theorem decodeU64_nat (n : Nat) (h : n < 2 ^ 64) : decodeU64 (.num (n : Int)) = .ok n := by
  simp only [decodeU64]
  rw [if_pos ⟨Int.natCast_nonneg n, by exact_mod_cast h⟩]
  simp

theorem decodePrintLevel_toWire (pl : PrintLevel) :
    decodePrintLevel (.str pl.toWire) = .ok pl := by
  cases pl <;> rfl

theorem decodeMessageWith_ok {T : Type} (decContent : String → Option Json → Except String T)
    (tags : List String) (fields : List (String × Json)) (t : String) (idv : Json)
    (idn : Nat) (c : T) (cv : Option Json) (m : Nat)
    (h1 : countKey fields "id" = 1) (h2 : countKey fields "type" = 1)
    (h3 : countKey fields "content" = m) (hm : m ≤ 1)
    (h4 : objFieldList fields "id" = some idv) (h5 : decodeU64 idv = .ok idn)
    (h6 : objFieldList fields "type" = some (.str t)) (h7 : t ∈ tags)
    (hcv : objFieldList fields "content" = cv) (h8 : decContent t cv = .ok c) :
    decodeMessageWith decContent tags (.obj fields) = .ok ⟨c, idn⟩ := by
  simp only [decodeMessageWith]
  rw [if_neg (by omega), if_neg (by omega), if_neg (by omega)]
  simp only [h4, h5, h6]
  rw [if_pos h7]
  simp only [hcv, h8]

theorem decodeServer_encode (ct : ServerMessageType) (i : Nat) (hi : i < 2 ^ 64)
    (hwf : ∀ n, ct = .loginResponse n → n < 2 ^ 64) :
    decodeServerMessage (encodeServerMessage ⟨ct, i⟩) = .ok ⟨ct, i⟩ := by
  have hid := decodeU64_nat i hi
  cases ct with
  | loginResponse n =>
    have hn := hwf n rfl
    exact decodeMessageWith_ok decodeServerContent serverTags
      [("type", .str "login_response"), ("content", .num (n : Int)), ("id", .num (i : Int))]
      "login_response" (.num (i : Int)) i (.loginResponse n) (some (.num (n : Int))) 1
      rfl rfl rfl (by omega) rfl hid rfl (by decide) rfl
      (by
        rw [show decodeServerContent "login_response" (some (.num (n : Int))) =
              (decodeU64 (.num (n : Int))).map ServerMessageType.loginResponse from rfl,
            decodeU64_nat n hn]
        rfl)
  | loginFailure s =>
    exact decodeMessageWith_ok decodeServerContent serverTags
      [("type", .str "login_failure"), ("content", .str s), ("id", .num (i : Int))]
      "login_failure" (.num (i : Int)) i (.loginFailure s) (some (.str s)) 1
      rfl rfl rfl (by omega) rfl hid rfl (by decide) rfl rfl
  | loginSuccess =>
    exact decodeMessageWith_ok decodeServerContent serverTags
      [("type", .str "login_success"), ("id", .num (i : Int))]
      "login_success" (.num (i : Int)) i .loginSuccess none 0
      rfl rfl rfl (by omega) rfl hid rfl (by decide) rfl rfl
  | print pl t =>
    exact decodeMessageWith_ok decodeServerContent serverTags
      [("type", .str "print"),
       ("content", .obj [("printlevel", .str pl.toWire), ("text", .str t)]),
       ("id", .num (i : Int))]
      "print" (.num (i : Int)) i (.print pl t)
      (some (.obj [("printlevel", .str pl.toWire), ("text", .str t)])) 1
      rfl rfl rfl (by omega) rfl hid rfl (by decide) rfl
      (by
        have e2 : decodeServerContent "print"
            (some (.obj [("printlevel", .str pl.toWire), ("text", .str t)])) =
            match decodePrintLevel (.str pl.toWire) with
            | .error e => .error e
            | .ok pl1 => decodePrintFields [("text", .str t)] (some pl1) none := rfl
        rw [e2]
        simp only [decodePrintLevel_toWire]
        rfl)
  | maplist =>
    exact decodeMessageWith_ok decodeServerContent serverTags
      [("type", .str "maplist"), ("id", .num (i : Int))]
      "maplist" (.num (i : Int)) i .maplist none 0
      rfl rfl rfl (by omega) rfl hid rfl (by decide) rfl rfl

theorem decodeClient_encode (ct : ClientMessageType) (i : Nat) (hi : i < 2 ^ 64)
    (hwf : ∀ v, ct = .loginRequest v →
      v.major ≤ 255 ∧ v.minor ≤ 255 ∧ v.revision ≤ 255) :
    decodeClientMessage (encodeClientMessage ⟨ct, i⟩) = .ok ⟨ct, i⟩ := by
  have hid := decodeU64_nat i hi
  cases ct with
  | loginRequest v =>
    obtain ⟨h1, h2, h3⟩ := hwf v rfl
    exact decodeMessageWith_ok decodeClientContent clientTags
      [("type", .str "login_request"), ("content", .str v.toWire), ("id", .num (i : Int))]
      "login_request" (.num (i : Int)) i (.loginRequest v) (some (.str v.toWire)) 1
      rfl rfl rfl (by omega) rfl hid rfl (by decide) rfl
      (by
        rw [show decodeClientContent "login_request" (some (.str v.toWire)) =
              (ProtocolVersion.fromString v.toWire).map ClientMessageType.loginRequest
              from rfl,
            fromString_toWire v h1 h2 h3]
        rfl)
  | loginPassword s =>
    exact decodeMessageWith_ok decodeClientContent clientTags
      [("type", .str "login_password"), ("content", .str s), ("id", .num (i : Int))]
      "login_password" (.num (i : Int)) i (.loginPassword s) (some (.str s)) 1
      rfl rfl rfl (by omega) rfl hid rfl (by decide) rfl rfl
  | command s =>
    exact decodeMessageWith_ok decodeClientContent clientTags
      [("type", .str "command"), ("content", .str s), ("id", .num (i : Int))]
      "command" (.num (i : Int)) i (.command s) (some (.str s)) 1
      rfl rfl rfl (by omega) rfl hid rfl (by decide) rfl rfl
  | maplist =>
    exact decodeMessageWith_ok decodeClientContent clientTags
      [("type", .str "maplist"), ("id", .num (i : Int))]
      "maplist" (.num (i : Int)) i .maplist none 0
      rfl rfl rfl (by omega) rfl hid rfl (by decide) rfl rfl

/-!  A printed message parses back as a JSON value. -/

theorem jsonChars_length_pos (v : Json) : 1 ≤ (jsonChars v).length := by
  cases v with
  | null => decide
  | bool b => cases b <;> decide
  | num n =>
    have e : jsonChars (.num n) = intChars n := rfl
    rw [e]
    unfold intChars
    by_cases h : n < 0
    · rw [if_pos h]
      simp only [List.length_cons]
      omega
    · rw [if_neg h]
      rcases hc : natChars n.natAbs with _ | ⟨a, l⟩
      · exact absurd hc (natChars_ne_nil _)
      · simp only [List.length_cons]
        omega
  | fnum => decide
  | str s =>
    have e : jsonChars (.str s) = ('"' :: s.data.flatMap escapeChar) ++ ['"'] := rfl
    rw [e]
    simp only [List.length_append, List.length_cons, List.length_nil]
    omega
  | arr xs =>
    have e : jsonChars (.arr xs) = ('[' :: itemsChars xs) ++ [']'] := rfl
    rw [e]
    simp only [List.length_append, List.length_cons, List.length_nil]
    omega
  | obj fs =>
    have e : jsonChars (.obj fs) = ('{' :: membersChars fs) ++ ['}'] := rfl
    rw [e]
    simp only [List.length_append, List.length_cons, List.length_nil]
    omega

theorem membersChars_length_ge (fields : List (String × Json)) (h : fields ≠ []) :
    4 * fields.length ≤ (membersChars fields).length := by
  induction fields with
  | nil => exact absurd rfl h
  | cons kv tl ih =>
    obtain ⟨k, v⟩ := kv
    have hv := jsonChars_length_pos v
    cases tl with
    | nil =>
      have e : membersChars [(k, v)] =
          (('"' :: k.data.flatMap escapeChar) ++ ['"']) ++ ':' :: jsonChars v := rfl
      rw [e]
      simp only [List.length_append, List.length_cons, List.length_nil]
      omega
    | cons m tlr =>
      have e : membersChars ((k, v) :: m :: tlr) =
          ((('"' :: k.data.flatMap escapeChar) ++ ['"']) ++ ':' :: jsonChars v) ++
            ',' :: membersChars (m :: tlr) := rfl
      rw [e]
      have h2 := ih (by simp)
      simp only [List.length_append, List.length_cons, List.length_nil] at h2 ⊢
      omega

theorem encodeServerMessage_valueOk (ct : ServerMessageType) (i : Nat) (hi : i < 2 ^ 64)
    (hwf : ∀ n, ct = .loginResponse n → n < 2 ^ 64) :
    ValueOk (encodeServerMessage ⟨ct, i⟩)
      (4 + (encodeServerContent ct ++ [("id", Json.num (i : Int))]).length + 1) := by
  have hobj : encodeServerMessage ⟨ct, i⟩ =
      .obj (encodeServerContent ct ++ [("id", .num (i : Int))]) := rfl
  rw [hobj]
  apply valueOk_obj 4
  intro kv hkv
  rcases List.mem_append.1 hkv with h | h
  · cases ct with
    | loginResponse n =>
      have hn := hwf n rfl
      simp only [encodeServerContent, List.mem_cons, List.not_mem_nil, or_false] at h
      rcases h with rfl | rfl
      · exact (valueOk_str _).mono (by omega)
      · exact (valueOk_num n hn).mono (by omega)
    | loginFailure str =>
      simp only [encodeServerContent, List.mem_cons, List.not_mem_nil, or_false] at h
      rcases h with rfl | rfl
      · exact (valueOk_str _).mono (by omega)
      · exact (valueOk_str _).mono (by omega)
    | loginSuccess =>
      simp only [encodeServerContent, List.mem_cons, List.not_mem_nil, or_false] at h
      rcases h with rfl
      exact (valueOk_str _).mono (by omega)
    | print pl t =>
      simp only [encodeServerContent, List.mem_cons, List.not_mem_nil, or_false] at h
      rcases h with rfl | rfl
      · exact (valueOk_str _).mono (by omega)
      · refine (valueOk_obj 1 _ ?_).mono (by simp)
        intro kv2 hkv2
        simp only [List.mem_cons, List.not_mem_nil, or_false] at hkv2
        rcases hkv2 with rfl | rfl
        · exact valueOk_str _
        · exact valueOk_str _
    | maplist =>
      simp only [encodeServerContent, List.mem_cons, List.not_mem_nil, or_false] at h
      rcases h with rfl
      exact (valueOk_str _).mono (by omega)
  · simp only [List.mem_cons, List.not_mem_nil, or_false] at h
    rcases h with rfl
    exact (valueOk_num i hi).mono (by omega)

theorem encodeClientMessage_valueOk (ct : ClientMessageType) (i : Nat) (hi : i < 2 ^ 64) :
    ValueOk (encodeClientMessage ⟨ct, i⟩)
      (4 + (encodeClientContent ct ++ [("id", Json.num (i : Int))]).length + 1) := by
  have hobj : encodeClientMessage ⟨ct, i⟩ =
      .obj (encodeClientContent ct ++ [("id", .num (i : Int))]) := rfl
  rw [hobj]
  apply valueOk_obj 4
  intro kv hkv
  rcases List.mem_append.1 hkv with h | h
  · cases ct with
    | loginRequest v =>
      simp only [encodeClientContent, List.mem_cons, List.not_mem_nil, or_false] at h
      rcases h with rfl | rfl
      · exact (valueOk_str _).mono (by omega)
      · exact (valueOk_str _).mono (by omega)
    | loginPassword s =>
      simp only [encodeClientContent, List.mem_cons, List.not_mem_nil, or_false] at h
      rcases h with rfl | rfl
      · exact (valueOk_str _).mono (by omega)
      · exact (valueOk_str _).mono (by omega)
    | command s =>
      simp only [encodeClientContent, List.mem_cons, List.not_mem_nil, or_false] at h
      rcases h with rfl | rfl
      · exact (valueOk_str _).mono (by omega)
      · exact (valueOk_str _).mono (by omega)
    | maplist =>
      simp only [encodeClientContent, List.mem_cons, List.not_mem_nil, or_false] at h
      rcases h with rfl
      exact (valueOk_str _).mono (by omega)
  · simp only [List.mem_cons, List.not_mem_nil, or_false] at h
    rcases h with rfl
    exact (valueOk_num i hi).mono (by omega)

theorem serializeServer_parse (ct : ServerMessageType) (i : Nat) (hi : i < 2 ^ 64)
    (hwf : ∀ n, ct = .loginResponse n → n < 2 ^ 64) :
    parseServerMessage (serializeServer ⟨ct, i⟩) = .ok ⟨ct, i⟩ := by
  have hok := encodeServerMessage_valueOk ct i hi hwf
  have hlen : 4 + (encodeServerContent ct ++ [("id", Json.num (i : Int))]).length + 1 ≤
      (jsonChars (encodeServerMessage ⟨ct, i⟩)).length + 1 := by
    have e : jsonChars (encodeServerMessage ⟨ct, i⟩) =
        ('{' :: membersChars (encodeServerContent ct ++ [("id", .num (i : Int))])) ++
          ['}'] := rfl
    rw [e]
    have hmc := membersChars_length_ge (encodeServerContent ct ++ [("id", .num (i : Int))])
      (by simp)
    simp only [List.length_append, List.length_cons, List.length_nil] at hmc ⊢
    omega
  have hjson := jsonParse_of_valueOk _ _ hok hlen
  have e2 : parseServerMessage (serializeServer ⟨ct, i⟩) =
      match jsonParse (jsonToString (encodeServerMessage ⟨ct, i⟩)) with
      | .error e => .error e
      | .ok j => decodeServerMessage j := rfl
  rw [e2]
  simp only [hjson]
  exact decodeServer_encode ct i hi hwf

theorem serializeClient_parse (ct : ClientMessageType) (i : Nat) (hi : i < 2 ^ 64)
    (hwf : ∀ v, ct = .loginRequest v →
      v.major ≤ 255 ∧ v.minor ≤ 255 ∧ v.revision ≤ 255) :
    parseClientMessage (serializeClient ⟨ct, i⟩) = .ok ⟨ct, i⟩ := by
  have hok := encodeClientMessage_valueOk ct i hi
  have hlen : 4 + (encodeClientContent ct ++ [("id", Json.num (i : Int))]).length + 1 ≤
      (jsonChars (encodeClientMessage ⟨ct, i⟩)).length + 1 := by
    have e : jsonChars (encodeClientMessage ⟨ct, i⟩) =
        ('{' :: membersChars (encodeClientContent ct ++ [("id", .num (i : Int))])) ++
          ['}'] := rfl
    rw [e]
    have hmc := membersChars_length_ge (encodeClientContent ct ++ [("id", .num (i : Int))])
      (by simp)
    simp only [List.length_append, List.length_cons, List.length_nil] at hmc ⊢
    omega
  have hjson := jsonParse_of_valueOk _ _ hok hlen
  have e2 : parseClientMessage (serializeClient ⟨ct, i⟩) =
      match jsonParse (jsonToString (encodeClientMessage ⟨ct, i⟩)) with
      | .error e => .error e
      | .ok j => decodeClientMessage j := rfl
  rw [e2]
  simp only [hjson]
  exact decodeClient_encode ct i hi hwf

/-- C1: for every well-formed message of either direction — every
`ServerMessageType` and `ClientMessageType` content variant with the
payload bounds the Rust types impose (`u64` login-response token,
`u8` version components), and every `usize` id — parsing the text
produced by `serialize` yields back a message equal to the original:
`parse(serialize(m)) = .ok m`. -/
theorem c1_serialize_parse_roundtrip (sc : ServerMessageType) (cc : ClientMessageType)
    (si ci : Nat) (hsi : si < 2 ^ 64) (hci : ci < 2 ^ 64)
    (hsrv : ∀ n, sc = .loginResponse n → n < 2 ^ 64)
    (hcli : ∀ v, cc = .loginRequest v →
      v.major ≤ 255 ∧ v.minor ≤ 255 ∧ v.revision ≤ 255) :
    parseServerMessage (serializeServer ⟨sc, si⟩) = .ok ⟨sc, si⟩ ∧
    parseClientMessage (serializeClient ⟨cc, ci⟩) = .ok ⟨cc, ci⟩ :=
  ⟨serializeServer_parse sc si hsi hsrv, serializeClient_parse cc ci hci hcli⟩

/-- C1, instantiated: a concrete print message and a concrete
login-request message each round-trip through their wire text. -/
theorem c1_serialize_parse_roundtrip_witness :
    parseServerMessage (serializeServer ⟨.print .high "Hello, world!", 2⟩) =
      .ok ⟨.print .high "Hello, world!", 2⟩ ∧
    parseClientMessage (serializeClient ⟨.loginRequest ⟨1, 0, 0⟩, 5⟩) =
      .ok ⟨.loginRequest ⟨1, 0, 0⟩, 5⟩ :=
  c1_serialize_parse_roundtrip (.print .high "Hello, world!") (.loginRequest ⟨1, 0, 0⟩)
    2 5 (by norm_num) (by norm_num)
    (fun n h => nomatch h)
    (fun v h => by cases h; exact ⟨by decide, by decide, by decide⟩)

end Odarcon
